import Mathlib

set_option maxRecDepth 100000

/-!
Verification of the doaddoad corpus / tweet-reconstruction pipeline
(src/doaddoad.py) against its specification.

Strings are embedded as `List Char`.  The generator (dadadodo) output is
decoded with `str(out, "ascii")`, so every string reaching the pipeline is
ASCII; the character-class predicates below embed Python's character
classes restricted to ASCII (e.g. the Unicode-whitespace code points below
U+0080 for `\s` on `str`).
-/

namespace Doaddoad

/-- Python `str` whitespace (`\s` in a `str` pattern, `str.strip`,
`str.isspace`), restricted to ASCII code points. -/
def pyIsSpace (c : Char) : Bool :=
  c == ' ' || c == '\t' || c == '\n' || c == '\r' || c == '\x0b' || c == '\x0c' ||
  c == '\x1c' || c == '\x1d' || c == '\x1e' || c == '\x1f'

/-- Python `bytes` whitespace (`\s` in a `bytes` pattern). -/
def bytesIsSpace (c : Char) : Bool :=
  c == ' ' || c == '\t' || c == '\n' || c == '\r' || c == '\x0b' || c == '\x0c'

/-- The whitespace set of the `textwrap` module (`string.whitespace`),
which is the same set of characters as `bytes` `\s`. -/
def twIsSpace (c : Char) : Bool :=
  c == '\t' || c == '\n' || c == '\x0b' || c == '\x0c' || c == '\r' || c == ' '

/-- Python `\w` (word character), ASCII part. -/
def pyIsWord (c : Char) : Bool := c.isAlpha || c.isDigit || c == '_'

/-- The `textwrap` word-separator regex's `letter` class `[^\d\W]`
(a word character that is not a digit), ASCII part. -/
def twLetter (c : Char) : Bool := (c.isAlpha || c == '_') && !c.isDigit

/-- The `textwrap` word-separator regex's `word_punct` class `[\w!"\'&.,?]`,
ASCII part. -/
def twWordPunct (c : Char) : Bool :=
  pyIsWord c || c == '!' || c == '"' || c == '\'' || c == '&' || c == '.' ||
  c == ',' || c == '?'

/-- Replace every occurrence of a character (Python `str.replace` with a
single-character pattern). -/
def replaceChar (pat repl : Char) (s : List Char) : List Char :=
  s.map (fun c => if c == pat then repl else c)

/-- Python `str.strip()` restricted to ASCII input. -/
def pyStrip (s : List Char) : List Char :=
  ((s.dropWhile pyIsSpace).reverse.dropWhile pyIsSpace).reverse

/-- Collapse every maximal run of `ws` characters to a single space:
`re.sub(\s+, " ", s)` with `ws` as the whitespace class.  The boolean
records whether the previous character was inside a whitespace run. -/
def collapseRuns (ws : Char → Bool) : Bool → List Char → List Char
  | _, [] => []
  | prevWs, c :: rest =>
    if ws c then
      if prevWs then collapseRuns ws true rest
      else ' ' :: collapseRuns ws true rest
    else c :: collapseRuns ws false rest

/-! ## Input sanitizer (`_dadadodo_input`) -/

/-- Python `str.encode("ascii", "ignore")`: keep only ASCII characters. -/
def asciiEncodeIgnore (s : List Char) : List Char :=
  s.filter (fun c => c.toNat < 128)

/-- ASCII-case-insensitive character comparison against a lowercase letter. -/
def ciEq (c lo : Char) : Bool := c == lo || c == lo.toUpper

/-- Try to match the pattern `https?://(\S+)?` (with `re.IGNORECASE`) at the
head of the list; on success return the remainder after the match. -/
def matchUrl : List Char → Option (List Char)
  | c1 :: c2 :: c3 :: c4 :: rest =>
    if ciEq c1 'h' && ciEq c2 't' && ciEq c3 't' && ciEq c4 'p' then
      let rest2 := match rest with
        | c5 :: r => if ciEq c5 's' then r else rest
        | [] => rest
      match rest2 with
      | ':' :: '/' :: '/' :: r2 => some (r2.dropWhile (fun c => !bytesIsSpace c))
      | _ => none
    else none
  | _ => none

/-- One fueled pass of `re.sub(b"https?://(\S+)?", b"", text)`: scan left to
right, removing every match.  The fuel bounds the recursion depth; a match
consumes at least seven characters, so fuel equal to the input length is
always sufficient. -/
def removeUrlsF : Nat → List Char → List Char
  | 0, s => s
  | _ + 1, [] => []
  | fuel + 1, c :: rest =>
    match matchUrl (c :: rest) with
    | some r => removeUrlsF fuel r
    | none => c :: removeUrlsF fuel rest

/-- Remove every URL substring: `re.sub(b"https?://(\S+)?", b"", text,
flags=re.IGNORECASE)`. -/
def removeUrls (s : List Char) : List Char := removeUrlsF s.length s

/-- The per-tweet sanitization of `_dadadodo_input`: encode to ASCII
dropping unrepresentable characters, collapse whitespace runs
(`re.sub(b"\s+", b" ", text)`), then strip URLs. -/
def dadadodoSanitize (text : List Char) : List Char :=
  removeUrls (collapseRuns bytesIsSpace false (asciiEncodeIgnore text))

/-! ## Retweet repair (`_fix_rt`)

Embedding of the match of `(?P<lead>^.*)([Rr][Tt]) +@?(?P<who>\S+) ?(?P<trail>.*)$`
against `text`, for inputs that contain no newline character (the pipeline
only applies `_fix_rt` to chunks of the normalized generator blob, from
which every newline has been removed; `.` and `$` treat `\n` specially). -/

/-- The optional `@?` of the regex: a leading `@` is consumed exactly when
a non-whitespace character follows it (`\S+` needs one more character). -/
def atStrip (d : Char) (rest3 : List Char) : List Char :=
  if d == '@' then
    match rest3 with
    | e :: _ => if pyIsSpace e then d :: rest3 else rest3
    | [] => d :: rest3
  else d :: rest3

/-- The optional ` ?` of the regex: one space, if present, is consumed
before the `trail` group starts. -/
def dropLeadSpace : List Char → List Char
  | ' ' :: t => t
  | t => t

/-- Try to match ` [Rr][Tt] +@?(\S+) ?(.*)$` starting at position `i` of
`s`; on success return the `who` and `trail` groups.  Backtracking over the
greedy pieces is resolved as the regex engine would: maximal run of spaces,
`@` consumed only when a non-whitespace character follows it, maximal
non-whitespace run for `who`, one optional space before `trail`. -/
def rtTailMatch (s : List Char) (i : Nat) : Option (List Char × List Char) :=
  match s.drop i with
  | c1 :: c2 :: rest =>
    if (c1 == 'R' || c1 == 'r') && (c2 == 'T' || c2 == 't') then
      if 1 ≤ (rest.takeWhile (fun c => c == ' ')).length then
        match rest.dropWhile (fun c => c == ' ') with
        | [] => none
        | d :: rest3 =>
          if pyIsSpace d then none
          else
            let afterAt := atStrip d rest3
            let who := afterAt.takeWhile (fun c => !pyIsSpace c)
            let rest4 := afterAt.dropWhile (fun c => !pyIsSpace c)
            let trail := dropLeadSpace rest4
            some (who, trail)
      else none
    else none
  | _ => none

/-- Position of the match chosen by the regex engine: the greedy `^.*` lead
selects the largest starting position at which the tail matches. -/
def findRtIdx (s : List Char) : Option Nat :=
  (List.range s.length).reverse.find? (fun i => (rtTailMatch s i).isSome)

/-- The `_fix_rt` heuristic: if an RT marker is found mid-text, rebuild the
text as `"RT @%s %s%s" % (who, lead, trail)` and strip it. -/
def fixRt (text : List Char) : List Char :=
  match findRtIdx text with
  | some i =>
    match rtTailMatch text i with
    | some (who, trail) =>
      pyStrip ("RT @".data ++ who ++ [' '] ++ text.take i ++ trail)
    | none => text
  | none => text

/-! ## Normalization step of `_extract_tweets` -/

/-- The whitespace normalization at the head of `_extract_tweets`:
`text.replace("\t", " ").replace("\n", " ").strip()` followed by
`re.sub("\s+", " ", text)`. -/
def normalizeText (s : List Char) : List Char :=
  collapseRuns pyIsSpace false (pyStrip (replaceChar '\n' ' ' (replaceChar '\t' ' ' s)))

/-! ## textwrap.wrap

Embedding of `textwrap.wrap(text, width)` with the default options
(`expand_tabs`, `replace_whitespace`, `drop_whitespace`,
`break_long_words`, `break_on_hyphens` all true, no indents, no
`max_lines`): whitespace munging, splitting on the word-separator regex,
and the line-filling loop `_wrap_chunks`. -/

/-- Python `str.expandtabs(8)`: the first component tracks the current
column, which is reset by newline and carriage return. -/
def expandTabsAux : Nat → List Char → List Char
  | _, [] => []
  | col, c :: rest =>
    if c == '\t' then
      List.replicate (8 - col % 8) ' ' ++ expandTabsAux (col + (8 - col % 8)) rest
    else if c == '\n' || c == '\r' then c :: expandTabsAux 0 rest
    else c :: expandTabsAux (col + 1) rest

/-- `TextWrapper._munge_whitespace`: expand tabs, then translate every
character of `string.whitespace` to a space. -/
def mungeWhitespace (s : List Char) : List Char :=
  (expandTabsAux 0 s).map (fun c => if twIsSpace c then ' ' else c)

/-- Character at an absolute position satisfies the textwrap whitespace
class (false past the end of the string). -/
def isWsAt (s : List Char) (i : Nat) : Bool :=
  match s[i]? with | some c => twIsSpace c | none => false

/-- Character at an absolute position is a non-whitespace character
(false past the end of the string). -/
def isNonWsAt (s : List Char) (i : Nat) : Bool :=
  match s[i]? with | some c => !twIsSpace c | none => false

/-- Character at an absolute position is in the regex `letter` class. -/
def isLetterAt (s : List Char) (i : Nat) : Bool :=
  match s[i]? with | some c => twLetter c | none => false

/-- Character at an absolute position is a `\w` word character. -/
def isWordAt (s : List Char) (i : Nat) : Bool :=
  match s[i]? with | some c => pyIsWord c | none => false

/-- Character at an absolute position equals a given character. -/
def isCharAt (s : List Char) (i : Nat) (c0 : Char) : Bool := s[i]? == some c0

/-- Length of the maximal run of characters satisfying `p` starting at
position `i`. -/
def runLenFrom (p : Char → Bool) (s : List Char) (i : Nat) : Nat :=
  ((s.drop i).takeWhile p).length

/-- Hyphenated-word sub-alternative of the word alternative of
`wordsep_re`: after `j` lazily consumed non-whitespace characters a
hyphen is consumed, subject to the regex's lookbehind
(`(?<=letter{2}-)` or `(?<=letter-letter-)`) and lookahead
(`(?=letter-?letter)`). -/
def condA (s : List Char) (i j : Nat) : Bool :=
  isCharAt s (i + j) '-' &&
  ((decide (2 ≤ i + j) && isLetterAt s (i + j - 2) && isLetterAt s (i + j - 1)) ||
   (decide (3 ≤ i + j) && isLetterAt s (i + j - 3) && isCharAt s (i + j - 2) '-' &&
    isLetterAt s (i + j - 1))) &&
  ((isLetterAt s (i + j + 1) && isLetterAt s (i + j + 2)) ||
   (isLetterAt s (i + j + 1) && isCharAt s (i + j + 2) '-' && isLetterAt s (i + j + 3)))

/-- End-of-word sub-alternative of `wordsep_re`: lookahead for whitespace
or end of string. -/
def condB (s : List Char) (i j : Nat) : Bool := !isNonWsAt s (i + j)

/-- Em-dash-ahead sub-alternative of `wordsep_re`: lookbehind
`(?<=word_punct)` on the last consumed character, lookahead `(?=-{2,}\w)`. -/
def condC (s : List Char) (i j : Nat) : Bool :=
  (match i + j with
   | 0 => false
   | k + 1 => match s[k]? with | some c => twWordPunct c | none => false) &&
  decide (2 ≤ runLenFrom (fun c => c == '-') s (i + j)) &&
  isWordAt s (i + j + runLenFrom (fun c => c == '-') s (i + j))

/-- Resolve the lazy `\S+?` of the word alternative: the number of
characters consumed for the smallest `j` at which a sub-alternative
matches, preferring the hyphenated-word sub-alternative (which consumes
one extra character) at equal `j`, as the regex alternation order does.
The budget bounds the search; starting from `j = 1` with budget equal to
the length of the non-whitespace run, the end-of-word sub-alternative is
reached before the budget runs out. -/
def alt3Len (s : List Char) (i : Nat) : Nat → Nat → Nat
  | j, 0 => j
  | j, b + 1 =>
    if condA s i j then j + 1
    else if condB s i j || condC s i j then j
    else alt3Len s i (j + 1) b

/-- Em-dash alternative of `wordsep_re` at position `i`:
`(?<=word_punct) -{2,} (?=\w)`. -/
def emDashAt (s : List Char) (i : Nat) : Bool :=
  (match i with
   | 0 => false
   | i' + 1 => match s[i']? with | some c => twWordPunct c | none => false) &&
  decide (2 ≤ runLenFrom (fun c => c == '-') s i) &&
  isWordAt s (i + runLenFrom (fun c => c == '-') s i)

/-- Length of the `wordsep_re` match starting at position `i < s.length`:
the alternatives are tried in the regex's order (whitespace run, em-dash,
word). -/
def tokenLen (s : List Char) (i : Nat) : Nat :=
  if isWsAt s i then runLenFrom twIsSpace s i
  else if emDashAt s i then runLenFrom (fun c => c == '-') s i
  else alt3Len s i 1 (runLenFrom (fun c => !twIsSpace c) s i)

/-- Successive `wordsep_re` matches from position `i`; a match starts at
every position, so the matches tile the string.  The fuel bounds the
number of matches; every match is nonempty, so fuel `s.length` suffices. -/
def tokFrom (s : List Char) : Nat → Nat → List (List Char)
  | 0, _ => []
  | fuel + 1, i =>
    if i < s.length then
      (s.drop i).take (tokenLen s i) :: tokFrom s fuel (i + tokenLen s i)
    else []

/-- `TextWrapper._split`: split on `wordsep_re` and drop empty chunks
(`[c for c in chunks if c]`; the filter is actually a no-op because every
match is nonempty). -/
def wordsepSplit (s : List Char) : List (List Char) :=
  (tokFrom s s.length 0).filter (fun c => !c.isEmpty)

/-! ### The `_wrap_chunks` loop -/

/-- Total length of a list of chunks (`sum(map(len, cur_line))`). -/
def sumLen (l : List (List Char)) : Nat := (l.map List.length).sum

/-- Python `chunk.strip() == ''`. -/
def stripEmpty (t : List Char) : Bool := t.all pyIsSpace

/-- The inner loop of `_wrap_chunks`: move chunks onto the current line
while they fit within `width`.  Returns the current line and the
remaining chunks. -/
def fillLine (width : Nat) :
    List (List Char) → Nat → List (List Char) → List (List Char) × List (List Char)
  | [], _, cur => (cur, [])
  | t :: rest, curLen, cur =>
    if curLen + t.length ≤ width then fillLine width rest (curLen + t.length) (cur ++ [t])
    else (cur, t :: rest)

/-- Python `chunk.rfind('-', 0, bound)` as an `Option`. -/
def rfindHyphen (chunk : List Char) (bound : Nat) : Option Nat :=
  ((List.range bound).filter (fun j => chunk[j]? == some '-')).getLast?

/-- `TextWrapper._handle_long_word` with `break_long_words` and
`break_on_hyphens`: cut a piece of at most `space_left` characters off the
chunk, preferring to cut just after the last hyphen in that window when
the prefix before the hyphen contains a non-hyphen character.  Returns
the piece appended to the current line and the remaining chunk. -/
def handleLongWord (width curLen : Nat) (chunk : List Char) : List Char × List Char :=
  let spaceLeft := if width < 1 then 1 else width - curLen
  let e :=
    if spaceLeft < chunk.length then
      match rfindHyphen chunk spaceLeft with
      | some h =>
        if decide (0 < h) && (chunk.take h).any (fun c => !(c == '-')) then h + 1
        else spaceLeft
      | none => spaceLeft
    else spaceLeft
  (chunk.take e, chunk.drop e)

/-- The stages of one iteration of the outer `while chunks:` loop of
`_wrap_chunks`, after the optional leading-whitespace drop: fill the
line, split an over-long head chunk (`_handle_long_word`), drop a
trailing whitespace chunk, and emit the line if it is nonempty.  Returns
the emitted line (if any) and the remaining chunks. -/
def wrapCore (width : Nat) (toks1 : List (List Char)) :
    Option (List Char) × List (List Char) :=
  let fr := fillLine width toks1 0 []
  let hr := match fr.2 with
    | t :: rtail =>
      if width < t.length then
        let pr := handleLongWord width (sumLen fr.1) t
        (fr.1 ++ [pr.1], pr.2 :: rtail)
      else (fr.1, fr.2)
    | [] => (fr.1, fr.2)
  let cur3 := match hr.1.getLast? with
    | some t => if stripEmpty t then hr.1.dropLast else hr.1
    | none => hr.1
  (if cur3.isEmpty then none else some cur3.flatten, hr.2)

/-- One iteration of the outer `while chunks:` loop of `_wrap_chunks`:
optionally drop a leading whitespace chunk (only when some line was
already emitted, i.e. `lines` is nonempty — tracked by `started`), then
run the remaining stages. -/
def wrapStep (width : Nat) (started : Bool) (toks : List (List Char)) :
    Option (List Char) × List (List Char) :=
  let toks1 := match toks with
    | t :: rest => if started && stripEmpty t then rest else toks
    | [] => toks
  wrapCore width toks1

/-- Termination measure for the wrap loop: every iteration either deletes
a chunk or shortens one, so the total chunk length plus the number of
chunks strictly decreases. -/
def msr (toks : List (List Char)) : Nat := sumLen toks + toks.length

/-- The outer loop of `_wrap_chunks`, fueled; `started` records whether
`lines` is nonempty.  Fuel `msr toks` is always sufficient. -/
def wrapIterF (width : Nat) : Nat → Bool → List (List Char) → List (List Char)
  | 0, _, _ => []
  | fuel + 1, started, toks =>
    match toks with
    | [] => []
    | _ :: _ =>
      let st := wrapStep width started toks
      match st.1 with
      | some line => line :: wrapIterF width fuel true st.2
      | none => wrapIterF width fuel started st.2

/-- `TextWrapper._wrap_chunks` on an already-split chunk list. -/
def wrapChunksList (width : Nat) (toks : List (List Char)) : List (List Char) :=
  wrapIterF width (msr toks) false toks

/-- `textwrap.wrap(text, width)` with default options. -/
def textwrapWrap (width : Nat) (text : List Char) : List (List Char) :=
  wrapChunksList width (wordsepSplit (mungeWhitespace text))

/-- The fixed maximum post length. -/
def TWEET_MAXLENGTH : Nat := 140

/-- `_extract_tweets`: normalize the generator blob, wrap it to the
maximum tweet length, and repair each produced chunk. -/
def extractTweets (text : List Char) : List (List Char) :=
  (textwrapWrap TWEET_MAXLENGTH (normalizeText text)).map fixRt

/-! ## Corpus store -/

/-- A stored post: the wrapped tweet object.  `lang` is the (cached)
result of `get_language_code()`, computed by the external language
detector and therefore opaque here. -/
structure Tweet where
  id : Nat
  text : List Char
  lang : Option (List Char)
deriving DecidableEq

/-- The in-memory corpus `self.state`, a `tweet_id -> Tweet` dict,
embedded as an association list with unique keys. -/
abbrev CorpusState := List (Nat × Tweet)

/-- `_trim_state`: with `limit == 0` do nothing; otherwise delete the
keys `sorted(self.state)[:-limit]`, keeping only the `limit` largest. -/
def trimState (limit : Nat) (st : CorpusState) : CorpusState :=
  if limit = 0 then st
  else
    let victims := ((st.map Prod.fst).mergeSort (fun a b => decide (a ≤ b))).take
      (st.length - limit)
    st.filter (fun kv => !victims.contains kv.1)

/-- The persistent side of the store: `state_file` holds the pickled
snapshot when the file exists.  Pickle serialization round-trips the
full mapping, so the snapshot is modelled as the state value itself. -/
structure Store where
  stateFile : Option CorpusState

/-- `save_state`: trim, then dump the whole mapping to the state file.
Returns the new in-memory state and the new store contents. -/
def saveState (limit : Nat) (st : CorpusState) : CorpusState × Store :=
  (trimState limit st, ⟨some (trimState limit st)⟩)

/-- `load_state`: if the state file does not exist, return leaving the
in-memory state untouched; otherwise replace it with the unpickled
snapshot. -/
def loadState (store : Store) (st : CorpusState) : CorpusState :=
  match store.stateFile with
  | none => st
  | some s => s

/-- `_add_tweet`: wrap and insert, keyed by the tweet's status id. -/
def addTweet (st : CorpusState) (tw : Tweet) : CorpusState :=
  (tw.id, tw) :: st

/-- The per-tweet body of `add_timeline`: insert only when the id is not
yet a key of the state. -/
def addIfNew (st : CorpusState) (tw : Tweet) : CorpusState :=
  if (st.map Prod.fst).contains tw.id then st else addTweet st tw

/-- `add_timeline`: add every not-yet-seen tweet of a fetched timeline. -/
def addTimeline (st : CorpusState) (timeline : List Tweet) : CorpusState :=
  timeline.foldl addIfNew st

/-! ## Generation (`generate_tweets` / `_dadadodo_input`) -/

/-- Truthiness of the `language` argument (`if language and ...`): an
absent filter and the empty string are both falsy. -/
def langGiven : Option (List Char) → Bool
  | none => false
  | some s => !s.isEmpty

/-- `_dadadodo_input`: shuffle the keys (the shuffle is a parameter,
since `random.shuffle` is nondeterministic), then for each key keep the
tweet when no language filter applies or its language code matches, and
sanitize its text. -/
def dadadodoInput (st : CorpusState) (language : Option (List Char))
    (shuffleIds : List Nat → List Nat) : List (List Char) :=
  (shuffleIds (st.map Prod.fst)).filterMap (fun tid =>
    match st.lookup tid with
    | none => none
    | some tw =>
      if langGiven language && !(language == tw.lang) then none
      else some (dadadodoSanitize tw.text))

/-- Python `b" ".join(...)`. -/
def joinWithSpace (l : List (List Char)) : List Char :=
  (l.intersperse [' ']).flatten

/-- `generate_tweets`: validate the language filter against the fixed
set of detectable language codes (`Tweet.language_codes`, provided by
the external `Tweet` module and therefore a parameter here), then feed
the joined sanitized corpus to dadadodo (`runDadadodo` is the external
generator process) and reconstruct tweets from its output.  A raised
`DoadDoadError` is an `Except.error`. -/
def generateTweets (languageCodes : List (List Char)) (st : CorpusState)
    (language : Option (List Char)) (shuffleIds : List Nat → List Nat)
    (runDadadodo : List Char → List Char) : Except (List Char) (List (List Char)) :=
  if langGiven language && !languageCodes.contains (language.getD []) then
    Except.error ("language is not detectable".data)
  else
    Except.ok (extractTweets (runDadadodo (joinWithSpace
      (dadadodoInput st language shuffleIds))))

/-! ## Specification-side predicates -/

/-- The chunks reconstruct the text: concatenating them in order, with a
separator that is either empty or one space between consecutive chunks,
yields the text exactly — no characters dropped or duplicated. -/
inductive Joins : List (List Char) → List Char → Prop
  | nil : Joins [] []
  | single (l : List Char) : Joins [l] l
  | cons (l sep : List Char) (rest : List (List Char)) (t : List Char) :
      sep = [] ∨ sep = [' '] → rest ≠ [] → Joins rest t → Joins (l :: rest) (l ++ sep ++ t)

/-- Shape of the output of the normalization step: the only whitespace
character is the plain space, spaces are never adjacent, and the text
neither starts nor ends with a space. -/
def NormalizedStr (s : List Char) : Prop :=
  (∀ c ∈ s, pyIsSpace c = true → c = ' ') ∧
  (∀ k : Nat, s[k]? = some ' ' → s[k + 1]? ≠ some ' ') ∧
  s.head? ≠ some ' ' ∧ s.getLast? ≠ some ' '

/-- A well-formed chunk for the wrap loop: either the single-space
whitespace chunk or a nonempty chunk with no whitespace at all. -/
def goodTok (t : List Char) : Prop :=
  t = [' '] ∨ (t ≠ [] ∧ ∀ c ∈ t, pyIsSpace c = false)

/-- Chunk lists produced by splitting normalized text: every chunk is
well-formed and two whitespace chunks are never adjacent. -/
def GoodToks (toks : List (List Char)) : Prop :=
  (∀ t ∈ toks, goodTok t) ∧ toks.Chain' (fun a b => a = [' '] → b ≠ [' '])

end Doaddoad

namespace Doaddoad

/-! ## Claims C4, C5, C6, C7, C8, C9, C10 -/

/-- C7: sanitizing the stored-post text "check http://example.com/x out"
yields "check  out", with two consecutive spaces where the URL was
removed, under the step order ASCII-encode / collapse whitespace /
delete URLs with no trailing-space cleanup. -/
theorem claim_C7 :
    dadadodoSanitize "check http://example.com/x out".data = "check  out".data := by
  decide

/-- C8: the retweet-repair heuristic applied to the chunk
"hello world RT @bob more text" yields exactly "RT @bob hello world more text". -/
theorem claim_C8 :
    fixRt "hello world RT @bob more text".data =
      "RT @bob hello world more text".data := by
  decide

/-- C9: the retweet-repair heuristic needs no word boundary before the
marker: on "start here", where the letters "rt" only end the ordinary
word "start", the chunk is rewritten to "RT @here sta" rather than
passed through unchanged. -/
theorem claim_C9 :
    fixRt "start here".data = "RT @here sta".data ∧
      fixRt "start here".data ≠ "start here".data := by
  constructor
  · decide
  · decide

/-- C10: when the persisted state file does not exist, `load_state`
returns without raising and leaves the in-memory corpus exactly as it
was; in particular a populated mapping is not reset to empty. -/
theorem claim_C10 (store : Store) (st : CorpusState)
    (h : store.stateFile = none) : loadState store st = st := by
  simp [loadState, h]

/-- Witness for C10 at a concrete populated corpus and an absent file. -/
theorem claim_C10_witness :
    loadState ⟨none⟩ [(1, ⟨1, ['a'], none⟩)] = [(1, ⟨1, ['a'], none⟩)] :=
  claim_C10 ⟨none⟩ [(1, ⟨1, ['a'], none⟩)] rfl

/-- C4: `save_state(limit)` followed by `load_state` into a fresh store
(empty in-memory corpus) yields exactly the trimmed pre-save corpus,
and the post-save in-memory corpus is that same trimmed corpus. -/
theorem claim_C4 (limit : Nat) (st : CorpusState) :
    loadState (saveState limit st).2 [] = trimState limit st ∧
      (saveState limit st).1 = trimState limit st :=
  ⟨rfl, rfl⟩

/-- C5: insertion is idempotent with respect to the post id: when the id
is already a key the corpus is left unchanged, and a post is inserted
exactly when its id is not yet present. -/
theorem claim_C5 (st : CorpusState) (tw : Tweet) :
    ((st.map Prod.fst).contains tw.id = true → addIfNew st tw = st) ∧
      ((st.map Prod.fst).contains tw.id = false → addIfNew st tw = addTweet st tw) := by
  constructor
  · intro h
    unfold addIfNew
    rw [h]
    rfl
  · intro h
    unfold addIfNew
    rw [h]
    rfl

/-- Witness for C5: re-adding id 1 leaves a corpus keyed by 1 unchanged. -/
theorem claim_C5_witness :
    addIfNew [(1, ⟨1, ['a'], none⟩)] ⟨1, ['b'], none⟩ = [(1, ⟨1, ['a'], none⟩)] :=
  (claim_C5 [(1, ⟨1, ['a'], none⟩)] ⟨1, ['b'], none⟩).1 (by decide)

/-- C6: for every supplied language filter outside the detectable set,
`generate_tweets` fails with the `DoadDoadError` validation error; the
result is the same for every generator and shuffle, so the external
generator is never consulted, and no corpus state is produced or
changed (the embedding of the method is read-only in the corpus). -/
theorem claim_C6 (codes : List (List Char)) (st : CorpusState) (l : List Char)
    (shuffleIds : List Nat → List Nat) (runDadadodo : List Char → List Char)
    (h1 : l ≠ []) (h2 : codes.contains l = false) :
    generateTweets codes st (some l) shuffleIds runDadadodo =
      Except.error ("language is not detectable".data) := by
  have he : l.isEmpty = false := by
    simpa [List.isEmpty_iff] using h1
  have hm : l ∉ codes := by simpa using h2
  simp [generateTweets, langGiven, he, hm]

/-- Witness for C6: filter "xx" against the detectable set containing
only "en", on a concrete corpus, with concrete generator and shuffle. -/
theorem claim_C6_witness :
    generateTweets ["en".data] [(1, ⟨1, ['a'], some "en".data⟩)] (some "xx".data)
      id (fun _ => []) = Except.error ("language is not detectable".data) :=
  claim_C6 ["en".data] [(1, ⟨1, ['a'], some "en".data⟩)] "xx".data id
    (fun _ => []) (by decide) (by decide)

/-! ## Claim C2: the trim invariant -/

/-- The sort comparator used to embed Python `sorted` on integer keys. -/
theorem mergeSort_le_trans :
    ∀ a b c : Nat, decide (a ≤ b) = true → decide (b ≤ c) = true →
      decide (a ≤ c) = true := by
  intro a b c hab hbc
  simp only [decide_eq_true_eq] at *
  omega

theorem mergeSort_le_total :
    ∀ a b : Nat, (decide (a ≤ b) || decide (b ≤ a)) = true := by
  intro a b
  simp only [Bool.or_eq_true, decide_eq_true_eq]
  omega

/-- C2: for a corpus with unique ids and any limit L > 0, after trimming
the corpus has exactly min(L, original size) entries, all drawn from the
original corpus, and an original entry survives exactly when fewer than
L ids of the corpus are larger than its id (i.e. the survivors are the L
entries with the numerically largest ids); for L = 0 no trimming at all
is performed. -/
theorem claim_C2 (L : Nat) (st : CorpusState) (hnd : (st.map Prod.fst).Nodup) :
    (0 < L →
      (trimState L st).length = min L st.length ∧
      (∀ kv ∈ trimState L st, kv ∈ st) ∧
      (∀ kv ∈ st, (kv ∈ trimState L st ↔
        ((st.map Prod.fst).filter (fun k => decide (kv.1 < k))).length < L))) ∧
    trimState 0 st = st := by
  constructor
  · intro hL
    have hL0 : L ≠ 0 := Nat.pos_iff_ne_zero.mp hL
    set ks : List Nat := st.map Prod.fst with hks
    set n : Nat := st.length with hn
    set sorted : List Nat := ks.mergeSort (fun a b => decide (a ≤ b)) with hsorted_def
    set victims : List Nat := sorted.take (n - L) with hvic
    set keep : List Nat := sorted.drop (n - L) with hkeep
    have htrim : trimState L st = st.filter (fun kv => !victims.contains kv.1) := by
      simp only [trimState, hL0, if_false]
    have hperm : sorted.Perm ks := List.mergeSort_perm ks _
    have hpw : sorted.Pairwise (fun a b => decide (a ≤ b) = true) :=
      List.sorted_mergeSort mergeSort_le_trans mergeSort_le_total ks
    have hnds : sorted.Nodup := (hperm.nodup_iff).mpr hnd
    have hsplit : victims ++ keep = sorted := List.take_append_drop _ _
    have hlen_sorted : sorted.length = n := by
      rw [hperm.length_eq, hks, List.length_map, hn]
    have hlen_keep : keep.length = n - (n - L) := by
      rw [hkeep, List.length_drop, hlen_sorted]
    have hcross : ∀ a ∈ victims, ∀ b ∈ keep, a ≤ b := by
      have := hsplit ▸ hpw
      rw [List.pairwise_append] at this
      intro a ha b hb
      simpa using this.2.2 a ha b hb
    have hdisj : victims.Disjoint keep :=
      List.disjoint_of_nodup_append (hsplit ▸ hnds)
    -- the length of the trimmed corpus
    have hcount1 : (st.filter (fun kv => !victims.contains kv.1)).length =
        sorted.countP (fun k => !victims.contains k) := by
      rw [← List.countP_eq_length_filter]
      have h1 : st.countP (fun kv => !victims.contains kv.1) =
          ks.countP (fun k => !victims.contains k) := by
        rw [hks, List.countP_map]
        rfl
      rw [h1, hperm.countP_eq]
    have hvic_zero : victims.countP (fun k => !victims.contains k) = 0 := by
      rw [List.countP_eq_zero]
      intro a ha
      simp [ha]
    have hkeep_all : keep.countP (fun k => !victims.contains k) = keep.length := by
      rw [List.countP_eq_length]
      intro a ha
      have : a ∉ victims := fun hv => hdisj hv ha
      simpa using this
    refine ⟨?_, ?_, ?_⟩
    · rw [htrim, hcount1, ← hsplit, List.countP_append, hvic_zero, hkeep_all,
        Nat.zero_add, hlen_keep]
      omega
    · intro kv hkv
      rw [htrim] at hkv
      exact (List.mem_filter.mp hkv).1
    · intro kv hkv
      have hkmem : kv.1 ∈ ks := List.mem_map.mpr ⟨kv, hkv, rfl⟩
      have hksort : kv.1 ∈ sorted := hperm.mem_iff.mpr hkmem
      have hcases : kv.1 ∈ victims ∨ kv.1 ∈ keep := by
        rw [← hsplit] at hksort
        exact List.mem_append.mp hksort
      have hflen : (ks.filter (fun k => decide (kv.1 < k))).length =
          sorted.countP (fun k => decide (kv.1 < k)) := by
        rw [← List.countP_eq_length_filter, (hperm.countP_eq _)]
      have hmem_iff : kv ∈ trimState L st ↔ victims.contains kv.1 = false := by
        rw [htrim, List.mem_filter]
        simp [hkv]
      rw [hmem_iff, hflen, ← hsplit, List.countP_append]
      rcases hcases with hv | hk
      · -- the entry was deleted: at least L larger ids survive
        have hkeepL : keep.length = L := by
          have hne : victims ≠ [] := List.ne_nil_of_mem hv
          have : n - L ≠ 0 := by
            intro h0
            rw [hvic, h0, List.take_zero] at hne
            exact hne rfl
          rw [hlen_keep]
          omega
        have hkeep_ge : keep.countP (fun k => decide (kv.1 < k)) = keep.length := by
          rw [List.countP_eq_length]
          intro a ha
          have h1 : kv.1 ≤ a := hcross _ hv _ ha
          have h2 : kv.1 ≠ a := fun he => hdisj hv (he ▸ ha)
          simpa using Nat.lt_of_le_of_ne h1 h2
        constructor
        · intro hfalse
          exact absurd hv (by simpa using hfalse)
        · intro hlt
          exfalso
          omega
      · -- the entry survives: fewer than L larger ids
        have hnotv : kv.1 ∉ victims := fun hv => hdisj hv hk
        have hvic0 : victims.countP (fun k => decide (kv.1 < k)) = 0 := by
          rw [List.countP_eq_zero]
          intro a ha
          have : a ≤ kv.1 := hcross _ ha _ hk
          simpa using Nat.not_lt.mpr this
        have hkeep_lt : keep.countP (fun k => decide (kv.1 < k)) < keep.length := by
          rw [List.countP_eq_length_filter]
          exact List.length_filter_lt_length_iff_exists.mpr ⟨kv.1, hk, by simp⟩
        have hklen : keep.length ≤ L := by
          rw [hlen_keep]
          omega
        constructor
        · intro _
          omega
        · intro _
          simpa using hnotv
  · simp [trimState]

/-! ## Helper lemmas about takeWhile-based scanning -/

theorem takeWhile_length_mono {p q : Char → Bool}
    (himp : ∀ c, p c = true → q c = true) :
    ∀ l : List Char, (l.takeWhile p).length ≤ (l.takeWhile q).length
  | [] => by simp
  | c :: l => by
    by_cases hp : p c = true
    · have hq := himp c hp
      have := takeWhile_length_mono himp l
      simp only [List.takeWhile_cons, hp, hq, if_true, List.length_cons]
      omega
    · simp [List.takeWhile_cons, hp]

theorem takeWhile_stop (p : Char → Bool) :
    ∀ l : List Char, l[(l.takeWhile p).length]? = none ∨
      ∃ c, l[(l.takeWhile p).length]? = some c ∧ p c = false
  | [] => by simp
  | c :: l => by
    by_cases hp : p c = true
    · rcases takeWhile_stop p l with h | ⟨d, hd, hpd⟩
      · left
        simpa [List.takeWhile_cons, hp] using h
      · right
        exact ⟨d, by simpa [List.takeWhile_cons, hp] using hd, hpd⟩
    · right
      refine ⟨c, ?_, by simpa using hp⟩
      simp [List.takeWhile_cons, hp]

theorem take_eq_take_takeWhile (p : Char → Bool) :
    ∀ (l : List Char) (n : Nat), n ≤ (l.takeWhile p).length →
      l.take n = (l.takeWhile p).take n
  | [], n => by simp
  | c :: l, 0 => by simp
  | c :: l, n + 1 => by
    intro h
    by_cases hp : p c = true
    · simp only [List.takeWhile_cons, hp, if_true, List.length_cons] at h ⊢
      simp only [List.take_succ_cons]
      rw [take_eq_take_takeWhile p l n (by omega)]
    · simp [List.takeWhile_cons, hp] at h

theorem mem_take_takeWhile {p : Char → Bool} {l : List Char} {n : Nat} {c : Char}
    (hn : n ≤ (l.takeWhile p).length) (hc : c ∈ l.take n) : p c = true := by
  rw [take_eq_take_takeWhile p l n hn] at hc
  exact List.mem_takeWhile_imp (List.take_subset _ _ hc)

/-! ## Tokenizer lemmas: the wordsep matches tile the string -/

theorem isWsAt_eq_true_iff {s : List Char} {i : Nat} :
    isWsAt s i = true ↔ ∃ c, s[i]? = some c ∧ twIsSpace c = true := by
  unfold isWsAt
  rcases h : s[i]? with _ | c <;> simp

theorem runLenFrom_pos {p : Char → Bool} {s : List Char} {i : Nat} {c : Char}
    (hc : s[i]? = some c) (hp : p c = true) : 1 ≤ runLenFrom p s i := by
  obtain ⟨hlt, hget⟩ := List.getElem?_eq_some_iff.mp hc
  unfold runLenFrom
  rw [List.drop_eq_getElem_cons hlt, List.takeWhile_cons, hget, hp]
  simp

theorem alt3Len_ge (s : List Char) (i : Nat) : ∀ b j, j ≤ alt3Len s i j b
  | 0, j => Nat.le_refl j
  | b + 1, j => by
    unfold alt3Len
    by_cases h1 : condA s i j = true
    · rw [if_pos h1]
      omega
    · rw [if_neg h1]
      by_cases h2 : (condB s i j || condC s i j) = true
      · rw [if_pos h2]
      · rw [if_neg h2]
        have := alt3Len_ge s i b (j + 1)
        omega

theorem tokenLen_pos (s : List Char) (i : Nat) :
    1 ≤ tokenLen s i := by
  unfold tokenLen
  by_cases hws : isWsAt s i = true
  · obtain ⟨c, hc, hcws⟩ := isWsAt_eq_true_iff.mp hws
    rw [if_pos hws]
    exact runLenFrom_pos hc hcws
  · rw [if_neg hws]
    by_cases hed : emDashAt s i = true
    · rw [if_pos hed]
      unfold emDashAt at hed
      simp only [Bool.and_eq_true, decide_eq_true_eq] at hed
      omega
    · rw [if_neg hed]
      exact alt3Len_ge s i _ 1

theorem tokFrom_flatten (s : List Char) :
    ∀ fuel i, s.length - i ≤ fuel → (tokFrom s fuel i).flatten = s.drop i := by
  intro fuel
  induction fuel with
  | zero =>
    intro i h
    have hle : s.length ≤ i := by omega
    simp [tokFrom, List.drop_eq_nil_of_le hle]
  | succ fuel ih =>
    intro i h
    by_cases hi : i < s.length
    · have hpos := tokenLen_pos s i
      simp only [tokFrom, hi, if_true, List.flatten_cons]
      rw [ih (i + tokenLen s i) (by omega), ← List.drop_drop]
      exact List.take_append_drop _ _
    · have hle : s.length ≤ i := by omega
      simp [tokFrom, hi, List.drop_eq_nil_of_le hle]

theorem flatten_filter_nonempty :
    ∀ l : List (List Char), (l.filter (fun c => !c.isEmpty)).flatten = l.flatten
  | [] => rfl
  | c :: l => by
    by_cases hc : c.isEmpty = true
    · have hnil : c = [] := by simpa [List.isEmpty_iff] using hc
      simp [List.filter_cons, hc, hnil, flatten_filter_nonempty l]
    · simp [List.filter_cons, hc, flatten_filter_nonempty l]

theorem wordsepSplit_flatten (s : List Char) : (wordsepSplit s).flatten = s := by
  unfold wordsepSplit
  rw [flatten_filter_nonempty, tokFrom_flatten s s.length 0 (by omega), List.drop_zero]

/-! ## Token shape on normalized text -/

theorem twIsSpace_imp_pyIsSpace {c : Char} (h : twIsSpace c = true) :
    pyIsSpace c = true := by
  unfold twIsSpace at h
  unfold pyIsSpace
  simp only [Bool.or_eq_true, beq_iff_eq] at h ⊢
  tauto

theorem mem_of_getElem?_eq_some {l : List Char} {i : Nat} {c : Char}
    (h : l[i]? = some c) : c ∈ l := by
  obtain ⟨hlt, hg⟩ := List.getElem?_eq_some_iff.mp h
  exact hg ▸ List.getElem_mem hlt

/-- In normalized text, any whitespace-class character is the space. -/
theorem normalized_ws_eq_space {s : List Char} (hns : NormalizedStr s) {i : Nat}
    {c : Char} (hc : s[i]? = some c) (hws : twIsSpace c = true) : c = ' ' :=
  hns.1 c (mem_of_getElem?_eq_some hc) (twIsSpace_imp_pyIsSpace hws)

/-- The whitespace token at a space of normalized text is the single
space. -/
theorem tokenLen_space {s : List Char} (hns : NormalizedStr s) {i : Nat}
    (h : s[i]? = some ' ') : tokenLen s i = 1 ∧ (s.drop i).take 1 = [' '] := by
  obtain ⟨hlt, hget⟩ := List.getElem?_eq_some_iff.mp h
  have hws : isWsAt s i = true := by
    unfold isWsAt
    rw [h]
    decide
  have hdrop : s.drop i = ' ' :: s.drop (i + 1) := by
    rw [List.drop_eq_getElem_cons hlt, hget]
  have htail : (s.drop (i + 1)).takeWhile twIsSpace = [] := by
    rcases h1 : s[i + 1]? with _ | c
    · have : s.length ≤ i + 1 := by
        by_contra hcon
        push_neg at hcon
        rw [List.getElem?_eq_some_iff.mpr ⟨hcon, rfl⟩] at h1
        exact Option.noConfusion h1
      rw [List.drop_eq_nil_of_le this]
      rfl
    · have hne : c ≠ ' ' := by
        intro he
        exact hns.2.1 i h (he ▸ h1)
      have hnws : twIsSpace c = false := by
        cases hcase : twIsSpace c with
        | false => rfl
        | true => exact absurd (normalized_ws_eq_space hns h1 hcase) hne
      obtain ⟨hlt1, hget1⟩ := List.getElem?_eq_some_iff.mp h1
      rw [List.drop_eq_getElem_cons hlt1, hget1, List.takeWhile_cons, hnws]
      rfl
  have hrun : runLenFrom twIsSpace s i = 1 := by
    unfold runLenFrom
    rw [hdrop, List.takeWhile_cons]
    simp only [show twIsSpace ' ' = true from rfl, if_true, htail]
    rfl
  constructor
  · unfold tokenLen
    rw [if_pos hws, hrun]
  · rw [hdrop]
    rfl

/-- On normalized text the hyphen-run length is bounded by the
non-whitespace-run length. -/
theorem hyphen_run_le_nws (s : List Char) (i : Nat) :
    runLenFrom (fun c => c == '-') s i ≤
      runLenFrom (fun c => !twIsSpace c) s i := by
  unfold runLenFrom
  refine takeWhile_length_mono ?_ _
  intro c hc
  have : c = '-' := by simpa using hc
  subst this
  decide

/-- Minimality search of the word alternative stays within the
non-whitespace run, because the end-of-word condition holds at its end. -/
theorem alt3Len_le (s : List Char) (i R : Nat)
    (hcb : condB s i R = true) (hca : condA s i R = false) :
    ∀ b j, j + b = R + 1 → j ≤ R → alt3Len s i j b ≤ R := by
  intro b
  induction b with
  | zero =>
    intro j h1 h2
    exact absurd h1 (by omega)
  | succ b ih =>
    intro j h1 h2
    unfold alt3Len
    by_cases ha : condA s i j = true
    · rw [if_pos ha]
      rcases Nat.eq_or_lt_of_le h2 with he | hlt
      · rw [he] at ha
        rw [ha] at hca
        exact absurd hca (by simp)
      · omega
    · rw [if_neg ha]
      by_cases hbc : (condB s i j || condC s i j) = true
      · rw [if_pos hbc]
        exact h2
      · rw [if_neg hbc]
        have hjR : j ≠ R := by
          intro he
          rw [he] at hbc
          rw [hcb] at hbc
          simp at hbc
        exact ih (j + 1) (by omega) (by omega)

/-- The end-of-word condition holds at the end of the non-whitespace run,
and the hyphen-consuming condition does not. -/
theorem runLenFrom_stop (p : Char → Bool) (s : List Char) (i : Nat) :
    s[i + runLenFrom p s i]? = none ∨
      ∃ c, s[i + runLenFrom p s i]? = some c ∧ p c = false := by
  have hstop := takeWhile_stop p (s.drop i)
  have hidx := List.getElem?_drop s i ((s.drop i).takeWhile p).length
  unfold runLenFrom
  rw [← hidx]
  exact hstop

theorem run_end_conds (s : List Char) (i : Nat) :
    condB s i (runLenFrom (fun c => !twIsSpace c) s i) = true ∧
      condA s i (runLenFrom (fun c => !twIsSpace c) s i) = false := by
  rcases runLenFrom_stop (fun c => !twIsSpace c) s i with hnone | ⟨c, hc, hpc⟩
  · constructor
    · unfold condB isNonWsAt
      rw [hnone]
      rfl
    · unfold condA isCharAt
      rw [hnone]
      rfl
  · have hcws : twIsSpace c = true := by
      simpa using hpc
    constructor
    · unfold condB isNonWsAt
      rw [hc]
      simp [hcws]
    · have hcdash : c ≠ '-' := by
        intro he
        rw [he] at hcws
        exact absurd hcws (by decide)
      unfold condA isCharAt
      rw [hc]
      have : (some c == some '-') = false := by
        simpa using hcdash
      rw [this]
      rfl

/-- On normalized text, the token at a non-space position stays within the
non-whitespace run. -/
theorem tokenLen_word_le {s : List Char} (hns : NormalizedStr s) {i : Nat}
    {c : Char} (hc : s[i]? = some c) (hcs : c ≠ ' ') :
    tokenLen s i ≤ runLenFrom (fun c => !twIsSpace c) s i := by
  have hcnws : twIsSpace c = false := by
    cases hcase : twIsSpace c with
    | false => rfl
    | true => exact absurd (normalized_ws_eq_space hns hc hcase) hcs
  have hws : isWsAt s i = false := by
    unfold isWsAt
    rw [hc]
    simp [hcnws]
  have hR : 1 ≤ runLenFrom (fun c => !twIsSpace c) s i :=
    runLenFrom_pos hc (by simp [hcnws])
  obtain ⟨hcb, hca⟩ := run_end_conds s i
  have hws' : ¬ (isWsAt s i = true) := by
    rw [hws]
    simp
  unfold tokenLen
  rw [if_neg hws']
  by_cases hed : emDashAt s i = true
  · rw [if_pos hed]
    exact hyphen_run_le_nws s i
  · rw [if_neg hed]
    exact alt3Len_le s i _ hcb hca _ 1 (by omega) hR

/-- Characterization of the token produced at each position of normalized
text: it is a good token; at a space it is the one-space token, at a
non-space it is not the one-space token. -/
theorem token_goodTok {s : List Char} (hns : NormalizedStr s) {i : Nat}
    (hi : i < s.length) :
    goodTok ((s.drop i).take (tokenLen s i)) ∧
      (s[i]? = some ' ' → (s.drop i).take (tokenLen s i) = [' ']) ∧
      (∀ c, s[i]? = some c → c ≠ ' ' →
        (s.drop i).take (tokenLen s i) ≠ [' ']) := by
  have hsome : s[i]? = some s[i] := List.getElem?_eq_some_iff.mpr ⟨hi, rfl⟩
  by_cases hsp : s[i] = ' '
  · obtain ⟨hlen, htok⟩ := tokenLen_space hns (hsp ▸ hsome)
    rw [hlen]
    refine ⟨Or.inl htok, fun _ => htok, ?_⟩
    intro c hcget hcne
    rw [hsome] at hcget
    have : s[i] = c := by
      injection hcget
    exact absurd (this ▸ hsp).symm (Ne.symm hcne)
  · have hle := tokenLen_word_le hns hsome hsp
    have hpos := tokenLen_pos s i
    have hchar : ∀ c ∈ (s.drop i).take (tokenLen s i), pyIsSpace c = false := by
      intro c hcmem
      have hnws : (!twIsSpace c) = true := mem_take_takeWhile hle hcmem
      have hcins : c ∈ s := List.drop_subset i s (List.take_subset _ _ hcmem)
      cases hcase : pyIsSpace c with
      | false => rfl
      | true =>
        have hceq : c = ' ' := hns.1 c hcins hcase
        rw [hceq] at hnws
        exact absurd hnws (by decide)
    have hne : (s.drop i).take (tokenLen s i) ≠ [] := by
      have hlendrop : (s.drop i).length = s.length - i := List.length_drop i s
      have : ((s.drop i).take (tokenLen s i)).length = min (tokenLen s i) (s.length - i) := by
        rw [List.length_take, hlendrop]
      intro hcon
      rw [hcon] at this
      simp only [List.length_nil] at this
      omega
    refine ⟨Or.inr ⟨hne, hchar⟩, ?_, ?_⟩
    · intro hcon
      rw [hsome] at hcon
      have : s[i] = ' ' := by
        injection hcon
      exact absurd this hsp
    · intro c _ _ hcon
      have : pyIsSpace ' ' = false := hchar ' ' (by rw [hcon]; exact List.mem_singleton_self ' ')
      exact absurd this (by decide)

theorem tokFrom_head (s : List Char) (fuel k : Nat) :
    (tokFrom s fuel k).head? = none ∨
      ((tokFrom s fuel k).head? = some ((s.drop k).take (tokenLen s k)) ∧
        k < s.length) := by
  cases fuel with
  | zero => exact Or.inl rfl
  | succ fuel =>
    by_cases hk : k < s.length
    · refine Or.inr ⟨?_, hk⟩
      simp [tokFrom, hk]
    · refine Or.inl ?_
      simp [tokFrom, hk]

theorem goodTok_ne_nil {t : List Char} (h : goodTok t) : t ≠ [] := by
  rcases h with rfl | ⟨hne, _⟩
  · simp
  · exact hne

theorem tokFrom_goodToks {s : List Char} (hns : NormalizedStr s) :
    ∀ fuel i, GoodToks (tokFrom s fuel i) := by
  intro fuel
  induction fuel with
  | zero =>
    intro i
    exact ⟨by intro t ht; simp [tokFrom] at ht, by constructor⟩
  | succ fuel ih =>
    intro i
    by_cases hi : i < s.length
    · have hg := token_goodTok hns hi
      have hrest := ih (i + tokenLen s i)
      constructor
      · intro t ht
        simp only [tokFrom, hi, if_true, List.mem_cons] at ht
        rcases ht with rfl | ht
        · exact hg.1
        · exact hrest.1 t ht
      · have hshape : tokFrom s (fuel + 1) i =
            (s.drop i).take (tokenLen s i) :: tokFrom s fuel (i + tokenLen s i) := by
          simp [tokFrom, hi]
        rw [hshape, List.chain'_cons']
        refine ⟨?_, hrest.2⟩
        intro y hy hsp
        -- the current token is the one-space token, so we sit on a space
        have hsome : s[i]? = some s[i] := List.getElem?_eq_some_iff.mpr ⟨hi, rfl⟩
        have hspace : s[i] = ' ' := by
          by_contra hcon
          exact hg.2.2 s[i] hsome hcon hsp
        have hsget : s[i]? = some ' ' := hspace ▸ hsome
        have hlen1 : tokenLen s i = 1 := (tokenLen_space hns hsget).1
        rcases tokFrom_head s fuel (i + tokenLen s i) with hnone | ⟨hhead, hklt⟩
        · rw [Option.mem_def, hnone] at hy
          exact Option.noConfusion hy
        · rw [Option.mem_def, hhead] at hy
          have hy' : y = (s.drop (i + 1)).take (tokenLen s (i + 1)) := by
            rw [hlen1] at hy
            exact (Option.some.inj hy).symm
          have hklt' : i + 1 < s.length := by
            rw [hlen1] at hklt
            exact hklt
          have hnext : s[i + 1]? = some s[i + 1] :=
            List.getElem?_eq_some_iff.mpr ⟨hklt', rfl⟩
          have hnsp : s[i + 1] ≠ ' ' := by
            intro he
            exact hns.2.1 i hsget (he ▸ hnext)
          have := (token_goodTok hns hklt').2.2 s[i + 1] hnext hnsp
          rw [hy']
          exact this
    · constructor
      · intro t ht
        simp [tokFrom, hi] at ht
      · have : tokFrom s (fuel + 1) i = [] := by
          simp [tokFrom, hi]
        rw [this]
        constructor

theorem wordsepSplit_eq {s : List Char} (hns : NormalizedStr s) :
    wordsepSplit s = tokFrom s s.length 0 := by
  unfold wordsepSplit
  apply List.filter_eq_self.mpr
  intro t ht
  have hgt := (tokFrom_goodToks hns s.length 0).1 t ht
  have hne := goodTok_ne_nil hgt
  simpa [List.isEmpty_iff] using hne

theorem wordsepSplit_goodToks {s : List Char} (hns : NormalizedStr s) :
    GoodToks (wordsepSplit s) := by
  rw [wordsepSplit_eq hns]
  exact tokFrom_goodToks hns s.length 0

/-! ## The normalization step produces normalized text -/

theorem dropWhile_head_false (p : Char → Bool) :
    ∀ (l : List Char) (c : Char), (l.dropWhile p).head? = some c → p c = false
  | [], c => by intro h; simp at h
  | d :: l, c => by
    intro h
    by_cases hd : p d = true
    · rw [List.dropWhile_cons, if_pos hd] at h
      exact dropWhile_head_false p l c h
    · rw [List.dropWhile_cons, if_neg hd] at h
      have : d = c := by
        simpa using h
      subst this
      simpa using hd

theorem pyStrip_last_not_space {s : List Char} {c : Char}
    (h : (pyStrip s).getLast? = some c) : pyIsSpace c = false := by
  unfold pyStrip at h
  rw [List.getLast?_reverse] at h
  exact dropWhile_head_false pyIsSpace _ c h

theorem pyStrip_head_not_space {s : List Char} {c : Char}
    (h : (pyStrip s).head? = some c) : pyIsSpace c = false := by
  unfold pyStrip at h
  rw [List.head?_reverse] at h
  -- the doubly-stripped list is a suffix of the reversed once-stripped list
  have hsuf : (s.dropWhile pyIsSpace).reverse.dropWhile pyIsSpace <:+
      (s.dropWhile pyIsSpace).reverse := List.dropWhile_suffix pyIsSpace
  obtain ⟨t, ht⟩ := hsuf
  have hne : (s.dropWhile pyIsSpace).reverse.dropWhile pyIsSpace ≠ [] := by
    intro hcon
    rw [hcon] at h
    simp at h
  have h2 : ((s.dropWhile pyIsSpace).reverse).getLast? = some c := by
    rw [← ht, List.getLast?_append_of_ne_nil t hne]
    exact h
  rw [List.getLast?_reverse] at h2
  exact dropWhile_head_false pyIsSpace _ c h2

theorem collapseRuns_chars (ws : Char → Bool) :
    ∀ (b : Bool) (l : List Char) (c : Char), c ∈ collapseRuns ws b l →
      c = ' ' ∨ (c ∈ l ∧ ws c = false)
  | b, [], c => by intro h; simp [collapseRuns] at h
  | b, d :: l, c => by
    intro h
    by_cases hd : ws d = true
    · cases b with
      | true =>
        rw [collapseRuns, if_pos hd] at h
        rcases collapseRuns_chars ws true l c h with h1 | ⟨h1, h2⟩
        · exact Or.inl h1
        · exact Or.inr ⟨List.mem_cons_of_mem d h1, h2⟩
      | false =>
        rw [collapseRuns, if_pos hd] at h
        rcases List.mem_cons.mp h with rfl | h'
        · exact Or.inl rfl
        · rcases collapseRuns_chars ws true l c h' with h1 | ⟨h1, h2⟩
          · exact Or.inl h1
          · exact Or.inr ⟨List.mem_cons_of_mem d h1, h2⟩
    · rw [collapseRuns, if_neg hd] at h
      rcases List.mem_cons.mp h with rfl | h'
      · exact Or.inr ⟨List.mem_cons_self c l, by simpa using hd⟩
      · rcases collapseRuns_chars ws false l c h' with h1 | ⟨h1, h2⟩
        · exact Or.inl h1
        · exact Or.inr ⟨List.mem_cons_of_mem d h1, h2⟩

theorem collapseRuns_true_head (ws : Char → Bool) :
    ∀ l : List Char, (collapseRuns ws true l).head? = none ∨
      ∃ d, (collapseRuns ws true l).head? = some d ∧ ws d = false
  | [] => Or.inl rfl
  | c :: l => by
    by_cases hc : ws c = true
    · rw [collapseRuns, if_pos hc]
      exact collapseRuns_true_head ws l
    · rw [collapseRuns, if_neg hc]
      exact Or.inr ⟨c, rfl, by simpa using hc⟩

theorem collapseRuns_chain (ws : Char → Bool) (hsp : ws ' ' = true) :
    ∀ (b : Bool) (l : List Char),
      (collapseRuns ws b l).Chain' (fun a c => a = ' ' → c ≠ ' ')
  | b, [] => by
    rw [collapseRuns]
    constructor
  | b, d :: l => by
    by_cases hd : ws d = true
    · cases b with
      | true =>
        rw [collapseRuns, if_pos hd]
        exact collapseRuns_chain ws hsp true l
      | false =>
        rw [collapseRuns, if_pos hd]
        show List.Chain' (fun a c => a = ' ' → c ≠ ' ') (' ' :: collapseRuns ws true l)
        rw [List.chain'_cons']
        refine ⟨?_, collapseRuns_chain ws hsp true l⟩
        intro y hy _
        rcases collapseRuns_true_head ws l with hnone | ⟨e, he, hwe⟩
        · rw [Option.mem_def, hnone] at hy
          exact Option.noConfusion hy
        · rw [Option.mem_def, he] at hy
          have : y = e := (Option.some.inj hy).symm
          subst this
          intro hcon
          rw [hcon] at hwe
          rw [hsp] at hwe
          exact Bool.noConfusion hwe
    · rw [collapseRuns, if_neg hd, List.chain'_cons']
      refine ⟨?_, collapseRuns_chain ws hsp false l⟩
      intro y _ hdsp
      exfalso
      rw [hdsp] at hd
      exact hd hsp

theorem collapseRuns_getLast (ws : Char → Bool) :
    ∀ (b : Bool) (l : List Char) (c : Char), l.getLast? = some c → ws c = false →
      (collapseRuns ws b l).getLast? = some c
  | b, [], c => by intro h _; simp at h
  | b, [d], c => by
    intro h hwc
    have hdc : d = c := by simpa using h
    subst hdc
    rw [collapseRuns, if_neg (by simp [hwc])]
    rfl
  | b, d :: e :: l, c => by
    intro h hwc
    have htail : (e :: l).getLast? = some c := by
      rw [List.getLast?_cons_cons] at h
      exact h
    have hrec : ∀ b', (collapseRuns ws b' (e :: l)).getLast? = some c :=
      fun b' => collapseRuns_getLast ws b' (e :: l) c htail hwc
    have hne : ∀ b', collapseRuns ws b' (e :: l) ≠ [] := by
      intro b' hcon
      have := hrec b'
      rw [hcon] at this
      exact Option.noConfusion this
    by_cases hd : ws d = true
    · cases b with
      | true =>
        rw [collapseRuns, if_pos hd]
        exact hrec true
      | false =>
        rw [collapseRuns, if_pos hd]
        show ([' '] ++ collapseRuns ws true (e :: l)).getLast? = some c
        rw [List.getLast?_append_of_ne_nil _ (hne true)]
        exact hrec true
    · rw [collapseRuns, if_neg hd]
      show ([d] ++ collapseRuns ws false (e :: l)).getLast? = some c
      rw [List.getLast?_append_of_ne_nil _ (hne false)]
      exact hrec false

theorem chain'_spaced_index {l : List Char}
    (h : l.Chain' (fun a b => a = ' ' → b ≠ ' ')) :
    ∀ k, l[k]? = some ' ' → l[k + 1]? ≠ some ' ' := by
  induction l with
  | nil =>
    intro k hk
    simp at hk
  | cons c l ih =>
    intro k
    cases k with
    | zero =>
      intro h0 h1
      rw [List.getElem?_cons_zero] at h0
      have hc : c = ' ' := by injection h0
      rw [List.getElem?_cons_succ] at h1
      rw [List.chain'_cons'] at h
      have hhead : l.head? = some ' ' := by
        rw [List.head?_eq_getElem?]
        exact h1
      exact h.1 ' ' (Option.mem_def.mpr hhead) hc rfl
    | succ k =>
      intro h0 h1
      rw [List.getElem?_cons_succ] at h0 h1
      rw [List.chain'_cons'] at h
      exact ih h.2 k h0 h1

/-- The normalization step of `_extract_tweets` yields normalized text. -/
theorem normalizeText_normalized (s : List Char) :
    NormalizedStr (normalizeText s) := by
  unfold normalizeText
  set base : List Char := pyStrip (replaceChar '\n' ' ' (replaceChar '\t' ' ' s))
    with hbase
  refine ⟨?_, ?_, ?_, ?_⟩
  · intro c hc hpc
    rcases collapseRuns_chars pyIsSpace false base c hc with h1 | ⟨_, h2⟩
    · exact h1
    · rw [hpc] at h2
      exact Bool.noConfusion h2
  · exact chain'_spaced_index (collapseRuns_chain pyIsSpace rfl false base)
  · intro hcon
    rcases hb : base with _ | ⟨d, l⟩
    · rw [hb] at hcon
      simp [collapseRuns] at hcon
    · have hhead : base.head? = some d := by
        rw [hb]
        rfl
      have hdns : pyIsSpace d = false := pyStrip_head_not_space (hbase ▸ hhead)
      rw [hb, collapseRuns, if_neg (by simp [hdns])] at hcon
      have hd : d = ' ' := by
        rw [List.head?_cons] at hcon
        injection hcon
      rw [hd] at hdns
      exact absurd hdns (by decide)
  · intro hcon
    rcases hlast : base.getLast? with _ | c
    · have hb : base = [] := List.getLast?_eq_none_iff.mp hlast
      rw [hb] at hcon
      simp [collapseRuns] at hcon
    · have hcns : pyIsSpace c = false := pyStrip_last_not_space (hbase ▸ hlast)
      have := collapseRuns_getLast pyIsSpace false base c hlast hcns
      rw [hcon] at this
      have hce : c = ' ' := by
        injection this with h'
        exact h'.symm
      rw [hce] at hcns
      exact absurd hcns (by decide)

/-! ## Munging is the identity on normalized text -/

theorem expandTabsAux_no_tab :
    ∀ (col : Nat) (l : List Char), (∀ c ∈ l, c ≠ '\t') → expandTabsAux col l = l
  | _, [], _ => rfl
  | col, c :: l, h => by
    have hc : c ≠ '\t' := h c (List.mem_cons_self c l)
    have hrest : ∀ d ∈ l, d ≠ '\t' := fun d hd => h d (List.mem_cons_of_mem c hd)
    rw [expandTabsAux, if_neg (by simpa using hc)]
    by_cases hnl : (c == '\n' || c == '\r') = true
    · rw [if_pos hnl, expandTabsAux_no_tab 0 l hrest]
    · rw [if_neg hnl, expandTabsAux_no_tab (col + 1) l hrest]

theorem mungeWhitespace_normalized {s : List Char} (hns : NormalizedStr s) :
    mungeWhitespace s = s := by
  unfold mungeWhitespace
  have hnotab : ∀ c ∈ s, c ≠ '\t' := by
    intro c hc he
    have := hns.1 c hc (by rw [he]; decide)
    rw [this] at he
    exact absurd he (by decide)
  rw [expandTabsAux_no_tab 0 s hnotab]
  have : ∀ c ∈ s, (if twIsSpace c then ' ' else c) = c := by
    intro c hc
    by_cases h : twIsSpace c = true
    · rw [if_pos h, hns.1 c hc (twIsSpace_imp_pyIsSpace h)]
    · rw [if_neg h]
  rw [List.map_congr_left this]
  simp

/-! ## Sums of chunk lengths -/

theorem sumLen_nil : sumLen [] = 0 := rfl

theorem sumLen_cons (t : List Char) (l : List (List Char)) :
    sumLen (t :: l) = t.length + sumLen l := by
  simp [sumLen]

theorem sumLen_append (l1 l2 : List (List Char)) :
    sumLen (l1 ++ l2) = sumLen l1 + sumLen l2 := by
  simp [sumLen]

theorem sumLen_flatten (l : List (List Char)) : l.flatten.length = sumLen l := by
  simp [sumLen, List.length_flatten]

theorem msr_cons (t : List Char) (l : List (List Char)) :
    msr (t :: l) = t.length + 1 + msr l := by
  simp [msr, sumLen_cons]
  omega

theorem msr_append (l1 l2 : List (List Char)) :
    msr (l1 ++ l2) = msr l1 + msr l2 := by
  simp [msr, sumLen_append]
  omega

theorem msr_pos {l : List (List Char)} (h : l ≠ []) : 1 ≤ msr l := by
  rcases l with _ | ⟨t, l⟩
  · exact absurd rfl h
  · rw [msr_cons]
    omega

theorem msr_eq_zero {l : List (List Char)} (h : msr l = 0) : l = [] := by
  rcases hl : l with _ | ⟨t, l'⟩
  · rfl
  · rw [hl, msr_cons] at h
    omega

/-! ## GoodToks helpers -/

theorem goodToks_append_right {l1 l2 : List (List Char)}
    (h : GoodToks (l1 ++ l2)) : GoodToks l2 := by
  refine ⟨?_, h.2.right_of_append⟩
  intro t ht
  exact h.1 t (List.mem_append_right l1 ht)

theorem goodToks_tail {t : List Char} {ts : List (List Char)}
    (h : GoodToks (t :: ts)) : GoodToks ts :=
  @goodToks_append_right [t] ts h

theorem stripEmpty_of_goodTok {t : List Char} (hg : goodTok t)
    (hs : stripEmpty t = true) : t = [' '] := by
  rcases hg with rfl | ⟨hne, hall⟩
  · rfl
  · exfalso
    rcases t with _ | ⟨c, t'⟩
    · exact hne rfl
    · have h1 := hall c (List.mem_cons_self c t')
      have h2 : pyIsSpace c = true := by
        have := List.all_eq_true.mp hs c (List.mem_cons_self c t')
        exact this
      rw [h1] at h2
      exact Bool.noConfusion h2

theorem goodTok_word_not_space {t : List Char} (_hne : t ≠ [])
    (hall : ∀ c ∈ t, pyIsSpace c = false) : t ≠ [' '] := by
  intro he
  have := hall ' ' (by rw [he]; exact List.mem_singleton_self ' ')
  exact absurd this (by decide)

theorem stripEmpty_not_of_word {t : List Char} (hne : t ≠ [])
    (hall : ∀ c ∈ t, pyIsSpace c = false) : stripEmpty t = false := by
  rcases t with _ | ⟨c, t'⟩
  · exact absurd rfl hne
  · have h1 := hall c (List.mem_cons_self c t')
    unfold stripEmpty
    rw [Bool.eq_false_iff]
    intro hcon
    have := List.all_eq_true.mp hcon c (List.mem_cons_self c t')
    rw [h1] at this
    exact Bool.noConfusion this

/-! ## The line-filling loop -/

theorem fillLine_spec (width : Nat) :
    ∀ (toks : List (List Char)) (curLen : Nat) (cur : List (List Char)),
      ∃ consumed rest,
        fillLine width toks curLen cur = (cur ++ consumed, rest) ∧
        toks = consumed ++ rest ∧
        (consumed = [] ∨ curLen + sumLen consumed ≤ width) ∧
        (∀ u tl, rest = u :: tl → width < curLen + sumLen consumed + u.length)
  | [], curLen, cur => by
    refine ⟨[], [], ?_, rfl, Or.inl rfl, ?_⟩
    · simp [fillLine]
    · intro u tl h
      exact absurd h (by simp)
  | t :: rest0, curLen, cur => by
    by_cases hfit : curLen + t.length ≤ width
    · obtain ⟨consumed, rest, heq, hsplit, hbound, hstop⟩ :=
        fillLine_spec width rest0 (curLen + t.length) (cur ++ [t])
      refine ⟨t :: consumed, rest, ?_, ?_, ?_, ?_⟩
      · rw [fillLine, if_pos hfit, heq]
        simp
      · rw [hsplit]
        rfl
      · right
        rw [sumLen_cons]
        rcases hbound with rfl | hb
        · rw [sumLen_nil]
          omega
        · omega
      · intro u tl h
        have := hstop u tl h
        rw [sumLen_cons]
        omega
    · refine ⟨[], t :: rest0, ?_, rfl, Or.inl rfl, ?_⟩
      · rw [fillLine, if_neg hfit]
        simp
      · intro u tl h
        injection h with h1 h2
        subst h1
        rw [sumLen_nil]
        omega

/-! ## Long-word handling -/

theorem rfindHyphen_lt {chunk : List Char} {bound h : Nat}
    (hf : rfindHyphen chunk bound = some h) : h < bound := by
  unfold rfindHyphen at hf
  have hmem := List.mem_of_mem_getLast? hf
  have := List.mem_filter.mp hmem
  exact List.mem_range.mp this.1

theorem handleLongWord_cut (width curLen : Nat) (chunk : List Char)
    (hw : 1 ≤ width) (hlen : width < chunk.length) (hcl : curLen ≤ width) :
    ∃ e, handleLongWord width curLen chunk = (chunk.take e, chunk.drop e) ∧
      curLen + e ≤ width ∧ (curLen = 0 → 1 ≤ e) := by
  have hnw : ¬ width < 1 := by omega
  have hsl : width - curLen < chunk.length := by omega
  rcases hf : rfindHyphen chunk (width - curLen) with _ | h
  · refine ⟨width - curLen, ?_, by omega, by omega⟩
    simp [handleLongWord, hnw, hsl, hf]
  · have hlt := rfindHyphen_lt hf
    by_cases hcond : (decide (0 < h) && (chunk.take h).any (fun c => !(c == '-'))) = true
    · refine ⟨h + 1, ?_, by omega, by omega⟩
      simp [handleLongWord, hnw, hsl, hf, hcond]
    · refine ⟨width - curLen, ?_, by omega, by omega⟩
      simp [handleLongWord, hnw, hsl, hf, hcond]

theorem handleLongWord_spec (width curLen : Nat) (chunk : List Char)
    (hw : 1 ≤ width) (hlen : width < chunk.length) (hcl : curLen ≤ width) :
    (handleLongWord width curLen chunk).1 ++ (handleLongWord width curLen chunk).2 = chunk ∧
    curLen + (handleLongWord width curLen chunk).1.length ≤ width ∧
    (handleLongWord width curLen chunk).2 ≠ [] ∧
    (curLen = 0 → (handleLongWord width curLen chunk).1 ≠ []) ∧
    (∀ c ∈ (handleLongWord width curLen chunk).1, c ∈ chunk) ∧
    (∀ c ∈ (handleLongWord width curLen chunk).2, c ∈ chunk) := by
  obtain ⟨e, heq, hle, hpos⟩ := handleLongWord_cut width curLen chunk hw hlen hcl
  rw [heq]
  refine ⟨List.take_append_drop e chunk, ?_, ?_, ?_, ?_, ?_⟩
  · show curLen + (chunk.take e).length ≤ width
    have : (chunk.take e).length = min e chunk.length := List.length_take e chunk
    omega
  · show chunk.drop e ≠ []
    intro hcon
    have : (chunk.drop e).length = chunk.length - e := List.length_drop e chunk
    rw [hcon] at this
    simp only [List.length_nil] at this
    omega
  · intro hc0
    have h1 := hpos hc0
    show chunk.take e ≠ []
    intro hcon
    have : (chunk.take e).length = min e chunk.length := List.length_take e chunk
    rw [hcon] at this
    simp only [List.length_nil] at this
    omega
  · exact fun c hc => List.take_subset e chunk hc
  · exact fun c hc => List.drop_subset e chunk hc

/-! ## The loop body of the wrapper -/

theorem flatten_ne_nil {l : List (List Char)} (hne : l ≠ [])
    (h : ∀ t ∈ l, t ≠ []) : l.flatten ≠ [] := by
  rcases l with _ | ⟨t, l'⟩
  · exact absurd rfl hne
  · have ht := h t (List.mem_cons_self t l')
    rw [List.flatten_cons]
    intro hcon
    rcases List.append_eq_nil.mp hcon with ⟨h1, _⟩
    exact ht h1

theorem goodToks_nil : GoodToks [] :=
  ⟨fun t ht => absurd ht (List.not_mem_nil t), by constructor⟩

theorem wrapCore_fill_nil {width : Nat} {toks1 consumed : List (List Char)}
    (hfeq : fillLine width toks1 0 [] = (consumed, [])) :
    wrapCore width toks1 =
      (let cur3 : List (List Char) := match consumed.getLast? with
        | some t => if stripEmpty t then consumed.dropLast else consumed
        | none => consumed
       (if cur3.isEmpty then none else some cur3.flatten, [])) := by
  unfold wrapCore
  simp only [hfeq]

theorem wrapCore_fill_cons {width : Nat} {toks1 consumed : List (List Char)}
    {u : List Char} {rtail : List (List Char)}
    (hfeq : fillLine width toks1 0 [] = (consumed, u :: rtail)) :
    wrapCore width toks1 =
      (let hr : List (List Char) × List (List Char) :=
        if width < u.length then
          (consumed ++ [(handleLongWord width (sumLen consumed) u).1],
           (handleLongWord width (sumLen consumed) u).2 :: rtail)
        else (consumed, u :: rtail)
       let cur3 : List (List Char) := match hr.1.getLast? with
        | some t => if stripEmpty t then hr.1.dropLast else hr.1
        | none => hr.1
       (if cur3.isEmpty then none else some cur3.flatten, hr.2)) := by
  unfold wrapCore
  simp only [hfeq]

/-- Invariants of one pass of the loop body (after the leading-whitespace
drop): the emitted line and the dropped trailing whitespace `dt` tile the
consumed chunks exactly; the remaining chunks are well-formed and
strictly smaller; an emitted line is nonempty and within the width; no
line means nothing remains; and when a trailing space was dropped the
next remaining chunk is not the space chunk. -/
theorem wrapCore_spec (width : Nat) (hw : 1 ≤ width) (toks1 : List (List Char))
    (hg : GoodToks toks1) (hhead : toks1.head? ≠ some [' ']) :
    ∃ dt : List Char, (dt = [] ∨ dt = [' ']) ∧
      toks1.flatten =
        ((wrapCore width toks1).1.getD []) ++ dt ++ (wrapCore width toks1).2.flatten ∧
      GoodToks (wrapCore width toks1).2 ∧
      (toks1 ≠ [] → msr (wrapCore width toks1).2 < msr toks1) ∧
      (∀ L, (wrapCore width toks1).1 = some L → L ≠ [] ∧ L.length ≤ width) ∧
      ((wrapCore width toks1).1 = none → (wrapCore width toks1).2 = []) ∧
      (dt = [' '] → ∀ u tl, (wrapCore width toks1).2 = u :: tl → u ≠ [' ']) := by
  obtain ⟨consumed, rest, hfeq0, hsplit, hbound, hstop⟩ := fillLine_spec width toks1 0 []
  have hfeq : fillLine width toks1 0 [] = (consumed, rest) := by simpa using hfeq0
  have hg' : GoodToks (consumed ++ rest) := by
    rw [← hsplit]
    exact hg
  have hgrest : GoodToks rest := goodToks_append_right hg'
  have hconsmem : ∀ t ∈ consumed, t ∈ toks1 := by
    intro t ht
    rw [hsplit]
    exact List.mem_append_left rest ht
  have hrestmem : ∀ t ∈ rest, t ∈ toks1 := by
    intro t ht
    rw [hsplit]
    exact List.mem_append_right consumed ht
  have hcons_ne : ∀ t ∈ consumed, t ≠ [] :=
    fun t ht => goodTok_ne_nil (hg.1 t (hconsmem t ht))
  have hcurlen : sumLen consumed ≤ width := by
    rcases hbound with hc0 | hb
    · rw [hc0, sumLen_nil]
      omega
    · omega
  rcases hrest : rest with _ | ⟨u, rtail⟩
  · -- case A: every chunk went onto the line
    subst hrest
    by_cases hcne : consumed = []
    · -- A0: nothing at all
      have htoks : toks1 = [] := by
        rw [hsplit, hcne]
        rfl
      subst htoks
      have hcore : wrapCore width ([] : List (List Char)) = (none, []) := rfl
      refine ⟨[], Or.inl rfl, ?_, ?_, ?_, ?_, ?_, ?_⟩
      · simp [hcore]
      · rw [hcore]
        exact goodToks_nil
      · intro h
        exact absurd rfl h
      · intro L hL
        rw [hcore] at hL
        exact absurd hL (by simp)
      · intro _
        rw [hcore]
      · intro h
        exact absurd h (by simp)
    · -- A1: the line is nonempty before the trailing drop
      rcases hlast : consumed.getLast? with _ | lt
      · exact absurd (List.getLast?_eq_none_iff.mp hlast) hcne
      have hsplitc : consumed.dropLast ++ [lt] = consumed :=
        List.dropLast_append_getLast? lt (Option.mem_def.mpr hlast)
      have hsplit' : toks1 = consumed := by simpa using hsplit
      have hltmem : lt ∈ consumed := List.mem_of_mem_getLast? hlast
      have htoks_ne : toks1 ≠ [] := by
        rw [hsplit']
        exact hcne
      by_cases hse : stripEmpty lt = true
      · -- A1a: the line ends with the space chunk, which is dropped
        have hlt : lt = [' '] := stripEmpty_of_goodTok (hg.1 lt (hconsmem lt hltmem)) hse
        have hdl_ne : consumed.dropLast ≠ [] := by
          intro hcon
          have : consumed = [lt] := by
            rw [← hsplitc, hcon]
            rfl
          rw [this, hlt] at hsplit'
          rw [hsplit'] at hhead
          exact hhead rfl
        have hie : consumed.dropLast.isEmpty = false := by
          cases hdd : consumed.dropLast with
          | nil => exact absurd hdd hdl_ne
          | cons a l => rfl
        have hcore : wrapCore width toks1 = (some consumed.dropLast.flatten, []) := by
          rw [wrapCore_fill_nil hfeq]
          simp only [hlast, hse, if_true, hie]
          rfl
        have hdlmem : ∀ t ∈ consumed.dropLast, t ∈ consumed := by
          intro t ht
          rw [← hsplitc]
          exact List.mem_append_left [lt] ht
        refine ⟨[' '], Or.inr rfl, ?_, ?_, ?_, ?_, ?_, ?_⟩
        · rw [hcore]
          show toks1.flatten = consumed.dropLast.flatten ++ [' '] ++ [].flatten
          conv_lhs => rw [hsplit', ← hsplitc]
          rw [List.flatten_append, hlt]
          simp
        · rw [hcore]
          exact goodToks_nil
        · intro _
          rw [hcore]
          show msr [] < msr toks1
          have h1 := msr_pos htoks_ne
          have h2 : msr ([] : List (List Char)) = 0 := rfl
          omega
        · intro L hL
          rw [hcore] at hL
          have hLe : L = consumed.dropLast.flatten := by
            have := Option.some.inj hL
            exact this.symm
          subst hLe
          constructor
          · exact flatten_ne_nil hdl_ne
              (fun t ht => hcons_ne t (hdlmem t ht))
          · rw [sumLen_flatten]
            have h1 : sumLen consumed.dropLast + lt.length = sumLen consumed := by
              conv_rhs => rw [← hsplitc]
              rw [sumLen_append, sumLen_cons, sumLen_nil]
              omega
            omega
        · intro hL
          rw [hcore] at hL
          exact absurd hL (by simp)
        · intro _ u tl hu
          rw [hcore] at hu
          exact absurd hu (by simp)
      · -- A1b: the whole line is kept
        have hie : consumed.isEmpty = false := by
          cases hdd : consumed with
          | nil => exact absurd hdd hcne
          | cons a l => rfl
        have hcore : wrapCore width toks1 = (some consumed.flatten, []) := by
          rw [wrapCore_fill_nil hfeq]
          simp only [hlast, hse, if_false, Bool.false_eq_true, hie]
        refine ⟨[], Or.inl rfl, ?_, ?_, ?_, ?_, ?_, ?_⟩
        · rw [hcore]
          show toks1.flatten = consumed.flatten ++ [] ++ [].flatten
          rw [hsplit']
          simp
        · rw [hcore]
          exact goodToks_nil
        · intro _
          rw [hcore]
          show msr [] < msr toks1
          have h1 := msr_pos htoks_ne
          have h2 : msr ([] : List (List Char)) = 0 := rfl
          omega
        · intro L hL
          rw [hcore] at hL
          have hLe : L = consumed.flatten := (Option.some.inj hL).symm
          subst hLe
          constructor
          · exact flatten_ne_nil hcne hcons_ne
          · rw [sumLen_flatten]
            omega
        · intro hL
          rw [hcore] at hL
          exact absurd hL (by simp)
        · intro h
          exact absurd h (by simp)
  · -- case B: a chunk u did not fit on the line
    subst hrest
    have hstopu : width < sumLen consumed + u.length := by
      have := hstop u rtail rfl
      omega
    have humem : u ∈ toks1 := hrestmem u (List.mem_cons_self u rtail)
    have hu_good : goodTok u := hg.1 u humem
    by_cases hlong : width < u.length
    · -- B2: u is longer than the whole width, break it
      have hu_word : u ≠ [] ∧ ∀ c ∈ u, pyIsSpace c = false := by
        rcases hu_good with he | hww
        · have h1 : u.length = 1 := by
            rw [he]
            rfl
          exact absurd hlong (by omega)
        · exact hww
      rcases hpr : handleLongWord width (sumLen consumed) u with ⟨piece, rem⟩
      have hhl := handleLongWord_spec width (sumLen consumed) u hw hlong hcurlen
      rw [hpr] at hhl
      simp only at hhl
      obtain ⟨hpr_app, hpr_len, hrem_ne, hpr_ne0, hpcmem, hrcmem⟩ := hhl
      have hrem_chars : ∀ c ∈ rem, pyIsSpace c = false :=
        fun c hc => hu_word.2 c (hrcmem c hc)
      have hpiece_chars : ∀ c ∈ piece, pyIsSpace c = false :=
        fun c hc => hu_word.2 c (hpcmem c hc)
      have hrem_nsp : rem ≠ [' '] := goodTok_word_not_space hrem_ne hrem_chars
      have hgrest2 : GoodToks (rem :: rtail) := by
        constructor
        · intro t ht
          rcases List.mem_cons.mp ht with rfl | ht'
          · exact Or.inr ⟨hrem_ne, hrem_chars⟩
          · exact hgrest.1 t (List.mem_cons_of_mem u ht')
        · rw [List.chain'_cons']
          refine ⟨fun y _ hsp => absurd hsp hrem_nsp, ?_⟩
          have := hgrest.2
          rw [List.chain'_cons'] at this
          exact this.2
      have hlen_piece_rem : piece.length + rem.length = u.length := by
        have := congrArg List.length hpr_app
        simpa using this
      by_cases hsp : stripEmpty piece = true
      · -- B2a: the broken-off piece is empty and gets dropped
        have hpiece_nil : piece = [] := by
          by_contra hcon
          rw [stripEmpty_not_of_word hcon hpiece_chars] at hsp
          exact Bool.noConfusion hsp
        have hcons_ne' : consumed ≠ [] := by
          intro hcon
          exact hpr_ne0 (by rw [hcon]; rfl) hpiece_nil
        have hie : consumed.isEmpty = false := by
          cases hdd : consumed with
          | nil => exact absurd hdd hcons_ne'
          | cons a l => rfl
        have hcore : wrapCore width toks1 = (some consumed.flatten, rem :: rtail) := by
          rw [wrapCore_fill_cons hfeq]
          simp only [hlong, if_true, hpr, List.getLast?_concat, hsp,
            List.dropLast_concat, hie]
          rfl
        refine ⟨[], Or.inl rfl, ?_, ?_, ?_, ?_, ?_, ?_⟩
        · rw [hcore]
          show toks1.flatten = consumed.flatten ++ [] ++ (rem :: rtail).flatten
          rw [hsplit, List.flatten_append, List.flatten_cons, List.flatten_cons]
          rw [← hpr_app, hpiece_nil]
          simp
        · rw [hcore]
          exact hgrest2
        · intro _
          rw [hcore]
          show msr (rem :: rtail) < msr toks1
          rw [hsplit, msr_append, msr_cons, msr_cons]
          have h1 : rem.length ≤ u.length := by omega
          have h2 := msr_pos hcons_ne'
          omega
        · intro L hL
          rw [hcore] at hL
          have hLe : L = consumed.flatten := (Option.some.inj hL).symm
          subst hLe
          refine ⟨flatten_ne_nil hcons_ne' hcons_ne, ?_⟩
          rw [sumLen_flatten]
          omega
        · intro hL
          rw [hcore] at hL
          exact absurd hL (by simp)
        · intro h
          exact absurd h (by simp)
      · -- B2b: the broken-off piece extends the line
        have hpiece_ne : piece ≠ [] := by
          intro hcon
          rw [hcon] at hsp
          exact hsp rfl
        have hie : (consumed ++ [piece]).isEmpty = false := by
          cases hdd : consumed ++ [piece] with
          | nil => exact absurd hdd (by simp)
          | cons a l => rfl
        have hcore : wrapCore width toks1 =
            (some (consumed ++ [piece]).flatten, rem :: rtail) := by
          rw [wrapCore_fill_cons hfeq]
          simp only [hlong, if_true, hpr, List.getLast?_concat, hsp,
            Bool.false_eq_true, if_false, hie]
        refine ⟨[], Or.inl rfl, ?_, ?_, ?_, ?_, ?_, ?_⟩
        · rw [hcore]
          show toks1.flatten =
            (consumed ++ [piece]).flatten ++ [] ++ (rem :: rtail).flatten
          rw [hsplit, List.flatten_append, List.flatten_cons, List.flatten_append,
            List.flatten_cons]
          rw [← hpr_app]
          simp
        · rw [hcore]
          exact hgrest2
        · intro _
          rw [hcore]
          show msr (rem :: rtail) < msr toks1
          rw [hsplit, msr_append, msr_cons, msr_cons]
          have h1 : 1 ≤ piece.length := by
            rcases piece with _ | ⟨a, p⟩
            · exact absurd rfl hpiece_ne
            · simp
          omega
        · intro L hL
          rw [hcore] at hL
          have hLe : L = (consumed ++ [piece]).flatten := (Option.some.inj hL).symm
          subst hLe
          constructor
          · apply flatten_ne_nil (by simp)
            intro t ht
            rcases List.mem_append.mp ht with ht' | ht'
            · exact hcons_ne t ht'
            · have : t = piece := by simpa using ht'
              rw [this]
              exact hpiece_ne
          · rw [sumLen_flatten, sumLen_append, sumLen_cons, sumLen_nil]
            omega
        · intro hL
          rw [hcore] at hL
          exact absurd hL (by simp)
        · intro h
          exact absurd h (by simp)
    · -- B1: u would fit on a line of its own, the line just ends here
      have hcons_ne' : consumed ≠ [] := by
        intro hcon
        rw [hcon, sumLen_nil] at hstopu
        omega
      rcases hlast : consumed.getLast? with _ | lt
      · exact absurd (List.getLast?_eq_none_iff.mp hlast) hcons_ne'
      have hsplitc : consumed.dropLast ++ [lt] = consumed :=
        List.dropLast_append_getLast? lt (Option.mem_def.mpr hlast)
      have hltmem : lt ∈ consumed := List.mem_of_mem_getLast? hlast
      have hcross : lt = [' '] → u ≠ [' '] := by
        intro hlt
        have hchain := hg.2
        rw [hsplit, List.chain'_append] at hchain
        have := hchain.2.2 lt (Option.mem_def.mpr hlast) u (Option.mem_def.mpr rfl)
        exact this hlt
      by_cases hse : stripEmpty lt = true
      · -- B1a: drop the trailing space chunk
        have hlt : lt = [' '] := stripEmpty_of_goodTok (hg.1 lt (hconsmem lt hltmem)) hse
        have hdl_ne : consumed.dropLast ≠ [] := by
          intro hcon
          have hc1 : consumed = [lt] := by
            rw [← hsplitc, hcon]
            rfl
          have : toks1.head? = some [' '] := by
            rw [hsplit, hc1, hlt]
            rfl
          exact hhead this
        have hie : consumed.dropLast.isEmpty = false := by
          cases hdd : consumed.dropLast with
          | nil => exact absurd hdd hdl_ne
          | cons a l => rfl
        have hcore : wrapCore width toks1 =
            (some consumed.dropLast.flatten, u :: rtail) := by
          rw [wrapCore_fill_cons hfeq]
          simp only [hlong, Bool.false_eq_true, if_false, hlast, hse, if_true, hie]
        have hdlmem : ∀ t ∈ consumed.dropLast, t ∈ consumed := by
          intro t ht
          rw [← hsplitc]
          exact List.mem_append_left [lt] ht
        refine ⟨[' '], Or.inr rfl, ?_, ?_, ?_, ?_, ?_, ?_⟩
        · rw [hcore]
          show toks1.flatten =
            consumed.dropLast.flatten ++ [' '] ++ (u :: rtail).flatten
          conv_lhs => rw [hsplit]
          conv_lhs => rw [← hsplitc]
          rw [List.flatten_append, List.flatten_append, hlt]
          simp
        · rw [hcore]
          exact hgrest
        · intro _
          rw [hcore]
          show msr (u :: rtail) < msr toks1
          rw [hsplit, msr_append]
          have := msr_pos hcons_ne'
          omega
        · intro L hL
          rw [hcore] at hL
          have hLe : L = consumed.dropLast.flatten := (Option.some.inj hL).symm
          subst hLe
          constructor
          · exact flatten_ne_nil hdl_ne (fun t ht => hcons_ne t (hdlmem t ht))
          · rw [sumLen_flatten]
            have h1 : sumLen consumed.dropLast + lt.length = sumLen consumed := by
              conv_rhs => rw [← hsplitc]
              rw [sumLen_append, sumLen_cons, sumLen_nil]
              omega
            omega
        · intro hL
          rw [hcore] at hL
          exact absurd hL (by simp)
        · intro _ u' tl' hu'
          rw [hcore] at hu'
          have h2 : u :: rtail = u' :: tl' := hu'
          have : u' = u := by
            injection h2 with ha hb
            exact ha.symm
          rw [this]
          exact hcross hlt
      · -- B1b: keep the whole line
        have hie : consumed.isEmpty = false := by
          cases hdd : consumed with
          | nil => exact absurd hdd hcons_ne'
          | cons a l => rfl
        have hcore : wrapCore width toks1 = (some consumed.flatten, u :: rtail) := by
          rw [wrapCore_fill_cons hfeq]
          simp only [hlong, Bool.false_eq_true, if_false, hlast, hse, hie]
        refine ⟨[], Or.inl rfl, ?_, ?_, ?_, ?_, ?_, ?_⟩
        · rw [hcore]
          show toks1.flatten = consumed.flatten ++ [] ++ (u :: rtail).flatten
          rw [hsplit, List.flatten_append]
          simp
        · rw [hcore]
          exact hgrest
        · intro _
          rw [hcore]
          show msr (u :: rtail) < msr toks1
          rw [hsplit, msr_append]
          have := msr_pos hcons_ne'
          omega
        · intro L hL
          rw [hcore] at hL
          have hLe : L = consumed.flatten := (Option.some.inj hL).symm
          subst hLe
          refine ⟨flatten_ne_nil hcons_ne' hcons_ne, ?_⟩
          rw [sumLen_flatten]
          omega
        · intro hL
          rw [hcore] at hL
          exact absurd hL (by simp)
        · intro h
          exact absurd h (by simp)

/-! ## One full loop iteration, leading drop included -/

theorem wrapStep_spec (width : Nat) (hw : 1 ≤ width) (started : Bool)
    (toks : List (List Char)) (hg : GoodToks toks)
    (hstart : started = false → toks.head? ≠ some [' ']) :
    ∃ dl dt : List Char,
      (dl = [] ∨ (dl = [' '] ∧ toks.head? = some [' '])) ∧
      (dt = [] ∨ dt = [' ']) ∧
      toks.flatten = dl ++ ((wrapStep width started toks).1.getD []) ++ dt ++
        (wrapStep width started toks).2.flatten ∧
      GoodToks (wrapStep width started toks).2 ∧
      (toks ≠ [] → msr (wrapStep width started toks).2 < msr toks) ∧
      (∀ L, (wrapStep width started toks).1 = some L → L ≠ [] ∧ L.length ≤ width) ∧
      ((wrapStep width started toks).1 = none → (wrapStep width started toks).2 = []) ∧
      (dt = [' '] → ∀ u tl, (wrapStep width started toks).2 = u :: tl → u ≠ [' ']) := by
  rcases htoks : toks with _ | ⟨t, ts⟩
  · subst htoks
    have hstep : wrapStep width started [] = wrapCore width [] := rfl
    have hcore : wrapCore width ([] : List (List Char)) = (none, []) := rfl
    refine ⟨[], [], Or.inl rfl, Or.inl rfl, ?_, ?_, ?_, ?_, ?_, ?_⟩
    · simp [hstep, hcore]
    · rw [hstep, hcore]
      exact goodToks_nil
    · intro h
      exact absurd rfl h
    · intro L hL
      rw [hstep, hcore] at hL
      exact absurd hL (by simp)
    · intro _
      rw [hstep, hcore]
    · intro h
      exact absurd h (by simp)
  · subst htoks
    by_cases hdrop : (started && stripEmpty t) = true
    · -- the leading whitespace chunk is dropped
      have hboth : started = true ∧ stripEmpty t = true := by simpa using hdrop
      have hset : stripEmpty t = true := hboth.2
      have hlt : t = [' '] :=
        stripEmpty_of_goodTok (hg.1 t (List.mem_cons_self t ts)) hset
      have hstep : wrapStep width started (t :: ts) = wrapCore width ts := by
        show wrapCore width
          (if (started && stripEmpty t) = true then ts else t :: ts) = wrapCore width ts
        rw [if_pos hdrop]
      have hhead' : ts.head? ≠ some [' '] := by
        intro hcon
        have hchain := hg.2
        rw [List.chain'_cons'] at hchain
        exact hchain.1 [' '] (Option.mem_def.mpr hcon) hlt rfl
      obtain ⟨dt, hdt, hflat, hgrest, hmsr, hline, hnone, hnext⟩ :=
        wrapCore_spec width hw ts (goodToks_tail hg) hhead'
      refine ⟨[' '], dt, Or.inr ⟨rfl, by simp [hlt]⟩, hdt, ?_, ?_, ?_, ?_, ?_, ?_⟩
      · rw [hstep, List.flatten_cons, hlt, hflat]
        rfl
      · rw [hstep]
        exact hgrest
      · intro _
        rw [hstep]
        by_cases hts : ts = []
        · subst hts
          have hcore : wrapCore width ([] : List (List Char)) = (none, []) := rfl
          rw [hcore]
          show msr [] < msr [t]
          have h1 : msr ([] : List (List Char)) = 0 := rfl
          have h2 : 1 ≤ msr [t] := msr_pos (by simp)
          omega
        · have h1 := hmsr hts
          have h2 : msr (t :: ts) = t.length + 1 + msr ts := msr_cons t ts
          omega
      · intro L hL
        rw [hstep] at hL
        exact hline L hL
      · intro hL
        rw [hstep] at hL
        rw [hstep]
        exact hnone hL
      · intro hd u tl hu
        rw [hstep] at hu
        exact hnext hd u tl hu
    · -- no drop: the chunk list is passed unchanged
      have hstep : wrapStep width started (t :: ts) = wrapCore width (t :: ts) := by
        show wrapCore width
          (if (started && stripEmpty t) = true then ts else t :: ts) =
            wrapCore width (t :: ts)
        rw [if_neg hdrop]
      have hhead' : (t :: ts).head? ≠ some [' '] := by
        cases hst : started with
        | false => exact hstart hst
        | true =>
          intro hcon
          have ht : t = [' '] := by
            have : t = [' '] := Option.some.inj hcon
            exact this
          apply hdrop
          rw [hst, ht]
          rfl
      obtain ⟨dt, hdt, hflat, hgrest, hmsr, hline, hnone, hnext⟩ :=
        wrapCore_spec width hw (t :: ts) hg hhead'
      refine ⟨[], dt, Or.inl rfl, hdt, ?_, ?_, ?_, ?_, ?_, ?_⟩
      · rw [hstep]
        simpa using hflat
      · rw [hstep]
        exact hgrest
      · intro h
        rw [hstep]
        exact hmsr h
      · intro L hL
        rw [hstep] at hL
        exact hline L hL
      · intro hL
        rw [hstep] at hL
        rw [hstep]
        exact hnone hL
      · intro hd u tl hu
        rw [hstep] at hu
        exact hnext hd u tl hu

theorem wrapIterF_nil (width : Nat) :
    ∀ (fuel : Nat) (started : Bool), wrapIterF width fuel started [] = []
  | 0, _ => rfl
  | _ + 1, _ => rfl

theorem wrapIterF_cons (width fuel : Nat) (started : Bool) (t : List Char)
    (ts : List (List Char)) :
    wrapIterF width (fuel + 1) started (t :: ts) =
      (match (wrapStep width started (t :: ts)).1 with
       | some line =>
         line :: wrapIterF width fuel true (wrapStep width started (t :: ts)).2
       | none => wrapIterF width fuel started (wrapStep width started (t :: ts)).2) :=
  rfl

theorem joins_nil_inv {t : List Char} (h : Joins [] t) : t = [] := by
  cases h
  rfl

/-- The outer loop: every emitted line is within the width, and the lines
reconstruct the flattened chunk text up to a leading dropped space and
single-space-or-empty separators between lines. -/
theorem wrapIter_spec (width : Nat) (hw : 1 ≤ width) :
    ∀ (fuel : Nat) (toks : List (List Char)) (started : Bool),
      GoodToks toks → msr toks ≤ fuel →
      (started = false → toks.head? ≠ some [' ']) →
      toks.flatten.getLast? ≠ some ' ' →
      (∀ l ∈ wrapIterF width fuel started toks, l.length ≤ width) ∧
      ∃ sep : List Char,
        (sep = [] ∨ (sep = [' '] ∧ toks.head? = some [' '])) ∧
        ∃ text : List Char, toks.flatten = sep ++ text ∧
          Joins (wrapIterF width fuel started toks) text := by
  intro fuel
  induction fuel with
  | zero =>
    intro toks started hg hm hs hlast
    have htoks : toks = [] := msr_eq_zero (Nat.le_zero.mp hm)
    subst htoks
    rw [wrapIterF_nil]
    exact ⟨by intro l hl; simp at hl, [], Or.inl rfl, [], rfl, Joins.nil⟩
  | succ fuel ih =>
    intro toks started hg hm hs hlast
    rcases htoks : toks with _ | ⟨t, ts⟩
    · subst htoks
      rw [wrapIterF_nil]
      exact ⟨by intro l hl; simp at hl, [], Or.inl rfl, [], rfl, Joins.nil⟩
    · subst htoks
      obtain ⟨dl, dt, hdl, hdt, hflat, hgrest, hmsr, hline, hnone, hdtnext⟩ :=
        wrapStep_spec width hw started (t :: ts) hg hs
      have hmsr' : msr (wrapStep width started (t :: ts)).2 ≤ fuel := by
        have h1 := hmsr (by simp)
        omega
      rcases hlineo : (wrapStep width started (t :: ts)).1 with _ | L
      · -- no line was emitted: nothing remains either
        have hrest := hnone hlineo
        have hiter : wrapIterF width (fuel + 1) started (t :: ts) = [] := by
          rw [wrapIterF_cons]
          simp only [hlineo, hrest, wrapIterF_nil]
        rw [hlineo] at hflat
        rw [hrest] at hflat
        have hflat' : (t :: ts).flatten = dl ++ dt := by
          rw [hflat]
          simp
        constructor
        · intro l hl
          rw [hiter] at hl
          simp at hl
        · by_cases hdtsp : dt = []
          · subst hdtsp
            refine ⟨dl, hdl, [], ?_, ?_⟩
            · rw [hflat']
            · rw [hiter]
              exact Joins.nil
          · exfalso
            have hdt' : dt = [' '] := by
              rcases hdt with h | h
              · exact absurd h hdtsp
              · exact h
            apply hlast
            rw [hflat', hdt', List.getLast?_concat]
      · -- a line L was emitted
        obtain ⟨hLne, hLle⟩ := hline L hlineo
        rw [hlineo] at hflat
        simp only [Option.getD_some] at hflat
        have hiter : wrapIterF width (fuel + 1) started (t :: ts) =
            L :: wrapIterF width fuel true (wrapStep width started (t :: ts)).2 := by
          rw [wrapIterF_cons]
          simp only [hlineo]
        have hlast' : (wrapStep width started (t :: ts)).2.flatten.getLast? ≠ some ' ' := by
          intro hcon
          have hne : (wrapStep width started (t :: ts)).2.flatten ≠ [] := by
            intro h0
            rw [h0] at hcon
            simp at hcon
          apply hlast
          rw [hflat, show dl ++ L ++ dt ++ (wrapStep width started (t :: ts)).2.flatten =
            (dl ++ L ++ dt) ++ (wrapStep width started (t :: ts)).2.flatten by simp]
          rw [List.getLast?_append_of_ne_nil _ hne]
          exact hcon
        obtain ⟨hbound', sep', hsep', text', heq', hjoins'⟩ :=
          ih (wrapStep width started (t :: ts)).2 true hgrest hmsr'
            (fun h => Bool.noConfusion h) hlast'
        have hsepv : sep' = [] ∨ sep' = [' '] := by
          rcases hsep' with h | ⟨h, _⟩
          · exact Or.inl h
          · exact Or.inr h
        constructor
        · intro l hl
          rw [hiter] at hl
          rcases List.mem_cons.mp hl with rfl | hl'
          · exact hLle
          · exact hbound' l hl'
        · refine ⟨dl, hdl, L ++ (dt ++ sep') ++ text', ?_, ?_⟩
          · rw [hflat, heq']
            simp
          · rw [hiter]
            rcases hlines' : wrapIterF width fuel true (wrapStep width started (t :: ts)).2
              with _ | ⟨l0, ls⟩
            · rw [hlines'] at hjoins'
              have htext' : text' = [] := joins_nil_inv hjoins'
              have hrflat : (wrapStep width started (t :: ts)).2.flatten = sep' := by
                rw [heq', htext']
                simp
              have hds : dt ++ sep' = [] := by
                by_contra hcon
                have hz : (dt ++ sep').getLast? = some ' ' := by
                  rcases hdt with rfl | rfl <;> rcases hsepv with rfl | rfl
                  · exact absurd rfl hcon
                  · rfl
                  · rfl
                  · rfl
                apply hlast
                rw [hflat, hrflat, show dl ++ L ++ dt ++ sep' =
                  (dl ++ L) ++ (dt ++ sep') by simp]
                rw [List.getLast?_append_of_ne_nil _ hcon]
                exact hz
              rw [htext', hds]
              have heqL : L ++ ([] : List Char) ++ ([] : List Char) = L := by simp
              rw [heqL]
              exact Joins.single L
            · rw [hlines'] at hjoins'
              have hds : dt ++ sep' = [] ∨ dt ++ sep' = [' '] := by
                rcases hdt with rfl | rfl
                · simpa using hsepv
                · rcases hsep' with rfl | ⟨hsp, hhd⟩
                  · simp
                  · exfalso
                    rcases hrlist : (wrapStep width started (t :: ts)).2 with _ | ⟨u0, tl0⟩
                    · rw [hrlist] at hhd
                      simp at hhd
                    · rw [hrlist] at hhd
                      have hu0 : u0 = [' '] := by
                        have h1 : some u0 = some [' '] := hhd
                        exact Option.some.inj h1
                      exact hdtnext rfl u0 tl0 hrlist hu0
              exact Joins.cons L (dt ++ sep') (l0 :: ls) text' hds (by simp) hjoins'

/-! ## Top-level wrap properties -/

theorem wordsepSplit_head_not_space {s : List Char} (hns : NormalizedStr s) :
    (wordsepSplit s).head? ≠ some [' '] := by
  rw [wordsepSplit_eq hns]
  rcases tokFrom_head s s.length 0 with h | ⟨h, hlt⟩
  · rw [h]
    simp
  · rw [h]
    intro hcon
    have htok : (s.drop 0).take (tokenLen s 0) = [' '] := Option.some.inj hcon
    have hsome : s[0]? = some s[0] := List.getElem?_eq_some_iff.mpr ⟨hlt, rfl⟩
    by_cases hsp : s[0] = ' '
    · apply hns.2.2.1
      rw [List.head?_eq_getElem?, hsome, hsp]
    · exact (token_goodTok hns hlt).2.2 s[0] hsome hsp htok

/-- The wrap step of `_extract_tweets`: every chunk respects the maximum
length, and the chunks reconstruct the normalized text losslessly with
empty-or-single-space separators. -/
theorem extract_wrap_spec (s : List Char) :
    (∀ chunk ∈ textwrapWrap TWEET_MAXLENGTH (normalizeText s),
      chunk.length ≤ TWEET_MAXLENGTH) ∧
    Joins (textwrapWrap TWEET_MAXLENGTH (normalizeText s)) (normalizeText s) := by
  have hns := normalizeText_normalized s
  have hmunge := mungeWhitespace_normalized hns
  have htw : textwrapWrap TWEET_MAXLENGTH (normalizeText s) =
      wrapIterF TWEET_MAXLENGTH (msr (wordsepSplit (normalizeText s))) false
        (wordsepSplit (normalizeText s)) := by
    unfold textwrapWrap wrapChunksList
    rw [hmunge]
  have hg := wordsepSplit_goodToks hns
  have hhead : false = false → (wordsepSplit (normalizeText s)).head? ≠ some [' '] :=
    fun _ => wordsepSplit_head_not_space hns
  have hlast : (wordsepSplit (normalizeText s)).flatten.getLast? ≠ some ' ' := by
    rw [wordsepSplit_flatten]
    exact hns.2.2.2
  obtain ⟨hbound, sep, hsep, text, heq, hjoins⟩ :=
    wrapIter_spec TWEET_MAXLENGTH (by decide) (msr (wordsepSplit (normalizeText s)))
      (wordsepSplit (normalizeText s)) false hg (Nat.le_refl _) hhead hlast
  have hsep0 : sep = [] := by
    rcases hsep with h | ⟨_, hhd⟩
    · exact h
    · exact absurd hhd (hhead rfl)
  rw [hsep0] at heq
  simp only [List.nil_append] at heq
  rw [wordsepSplit_flatten] at heq
  subst heq
  constructor
  · intro chunk hc
    rw [htw] at hc
    exact hbound chunk hc
  · rw [htw]
    exact hjoins

/-! ## Length accounting of the retweet repair -/

theorem dropWhile_length_le (p : Char → Bool) (l : List Char) :
    (l.dropWhile p).length ≤ l.length := by
  conv_rhs => rw [← List.takeWhile_append_dropWhile p l]
  rw [List.length_append]
  omega

theorem pyStrip_length_le (s : List Char) : (pyStrip s).length ≤ s.length := by
  unfold pyStrip
  rw [List.length_reverse]
  refine le_trans (dropWhile_length_le _ _) ?_
  rw [List.length_reverse]
  exact dropWhile_length_le _ _

theorem atStrip_length_le (d : Char) (rest3 : List Char) :
    (atStrip d rest3).length ≤ rest3.length + 1 := by
  unfold atStrip
  by_cases hat : (d == '@') = true
  · rw [if_pos hat]
    rcases rest3 with _ | ⟨e, r4⟩
    · simp
    · simp only []
      by_cases hpe : pyIsSpace e = true
      · rw [if_pos hpe]
        simp
      · rw [if_neg hpe]
        simp only [List.length_cons]
        omega
  · rw [if_neg hat]
    simp

theorem dropLeadSpace_length_le (l : List Char) :
    (dropLeadSpace l).length ≤ l.length := by
  unfold dropLeadSpace
  split
  · simp
  · exact Nat.le_refl _

theorem rtTailMatch_lengths {s : List Char} {i : Nat} {who trail : List Char}
    (h : rtTailMatch s i = some (who, trail)) :
    i + 3 + who.length + trail.length ≤ s.length := by
  rcases hd : s.drop i with _ | ⟨c1, rest1⟩
  · rw [rtTailMatch, hd] at h
    exact absurd h (by simp)
  rcases hr1 : rest1 with _ | ⟨c2, rest⟩
  · rw [rtTailMatch, hd, hr1] at h
    exact absurd h (by simp)
  subst hr1
  rw [rtTailMatch, hd] at h
  simp only [] at h
  by_cases hb1 : ((c1 == 'R' || c1 == 'r') && (c2 == 'T' || c2 == 't')) = true
  · rw [if_pos hb1] at h
    by_cases hk : 1 ≤ (rest.takeWhile (fun c => c == ' ')).length
    · rw [if_pos hk] at h
      rcases hdw : rest.dropWhile (fun c => c == ' ') with _ | ⟨d, rest3⟩
      · rw [hdw] at h
        exact absurd h (by simp)
      · rw [hdw] at h
        simp only [] at h
        by_cases hds : pyIsSpace d = true
        · rw [if_pos hds] at h
          exact absurd h (by simp)
        · rw [if_neg hds] at h
          obtain ⟨hwho, htrail⟩ := Prod.mk.injEq .. ▸ Option.some.inj h
          -- length bookkeeping
          have hi : i < s.length := by
            by_contra hcon
            push_neg at hcon
            rw [List.drop_eq_nil_of_le hcon] at hd
            exact List.noConfusion hd
          have hlen1 : (s.drop i).length = s.length - i := List.length_drop i s
          rw [hd] at hlen1
          simp only [List.length_cons] at hlen1
          have htk : (rest.takeWhile (fun c => c == ' ')).length +
              (rest.dropWhile (fun c => c == ' ')).length = rest.length := by
            conv_rhs => rw [← List.takeWhile_append_dropWhile (fun c => c == ' ') rest]
            rw [List.length_append]
          rw [hdw] at htk
          simp only [List.length_cons] at htk
          have hafter : (atStrip d rest3).length ≤ rest3.length + 1 :=
            atStrip_length_le d rest3
          have hsum : ((atStrip d rest3).takeWhile (fun c => !pyIsSpace c)).length +
              ((atStrip d rest3).dropWhile (fun c => !pyIsSpace c)).length =
              (atStrip d rest3).length := by
            conv_rhs => rw [← List.takeWhile_append_dropWhile
              (fun c => !pyIsSpace c) (atStrip d rest3)]
            rw [List.length_append]
          have htr : trail.length ≤
              ((atStrip d rest3).dropWhile (fun c => !pyIsSpace c)).length := by
            rw [← htrail]
            exact dropLeadSpace_length_le _
          have hwl : who.length =
              ((atStrip d rest3).takeWhile (fun c => !pyIsSpace c)).length := by
            rw [← hwho]
          omega
    · rw [if_neg hk] at h
      exact absurd h (by simp)
  · rw [if_neg hb1] at h
    exact absurd h (by simp)

/-! ## Claims C3 and C1 -/

theorem fixRt_length_le (text : List Char) : (fixRt text).length ≤ text.length + 2 := by
  rcases hf : findRtIdx text with _ | i
  · unfold fixRt
    rw [hf]
    show text.length ≤ text.length + 2
    omega
  · rcases hm : rtTailMatch text i with _ | ⟨who, trail⟩
    · unfold fixRt
      simp only [hf, hm]
      omega
    · unfold fixRt
      simp only [hf, hm]
      have h1 := pyStrip_length_le ("RT @".data ++ who ++ [' '] ++ text.take i ++ trail)
      have h2 := rtTailMatch_lengths hm
      have h3 : (text.take i).length = min i text.length := List.length_take i text
      simp only [List.length_append, List.length_cons, List.length_nil,
        show ("RT @".data : List Char) = ['R', 'T', ' ', '@'] from rfl] at h1 ⊢
      omega

/-- C3: for every generator blob and the fixed maximum length 140, every
chunk produced by the wrap step of the Output Reconstructor has length at
most 140, and the chunk list reconstructs the normalized source text
losslessly — concatenating the chunks with the separators the algorithm
removed at chunk boundaries (a single space or nothing) reinserted yields
the normalized blob, with no characters dropped or duplicated. -/
theorem claim_C3 (s : List Char) :
    (∀ chunk ∈ textwrapWrap TWEET_MAXLENGTH (normalizeText s),
      chunk.length ≤ TWEET_MAXLENGTH) ∧
    Joins (textwrapWrap TWEET_MAXLENGTH (normalizeText s)) (normalizeText s) :=
  extract_wrap_spec s

/-- Counterexample to C1: on this 140-character generator blob the wrap
step emits a single 140-character chunk, and the RT repair then lengthens
it to 142 characters, exceeding the fixed maximum post length of 140. -/
theorem claim_C1_counterexample :
    ∃ m ∈ extractTweets
      (List.replicate 120 'a' ++ ('R' :: 'T' :: ' ' :: List.replicate 17 'b')),
      TWEET_MAXLENGTH < m.length := by
  decide

/-- C1 (amended): every candidate message yielded by the Output
Reconstructor pipeline has length at most the fixed maximum post length
plus two — the wrap step bounds each chunk by 140 characters, and the RT
repair can lengthen a chunk by at most two characters. -/
theorem claim_C1_amended (blob : List Char) :
    ∀ m ∈ extractTweets blob, m.length ≤ TWEET_MAXLENGTH + 2 := by
  intro m hm
  unfold extractTweets at hm
  rcases List.mem_map.mp hm with ⟨chunk, hc, rfl⟩
  have h1 := (extract_wrap_spec blob).1 chunk hc
  have h2 := fixRt_length_le chunk
  omega

/-- Witness for the amended C1 at the one-character blob "a", whose single
candidate message is "a". -/
theorem claim_C1_amended_witness :
    "a".data ∈ extractTweets "a".data ∧ "a".data.length ≤ TWEET_MAXLENGTH + 2 :=
  ⟨by decide, claim_C1_amended "a".data "a".data (by decide)⟩

/-- Witness for C2: trimming a two-entry corpus with limit 1 keeps exactly
one entry, and limit 0 leaves the corpus unchanged. -/
theorem claim_C2_witness :
    (trimState 1 [((1 : Nat), (⟨1, ['a'], none⟩ : Tweet)),
      (2, ⟨2, ['b'], none⟩)]).length = 1 ∧
    trimState 0 [((1 : Nat), (⟨1, ['a'], none⟩ : Tweet)), (2, ⟨2, ['b'], none⟩)] =
      [(1, ⟨1, ['a'], none⟩), (2, ⟨2, ['b'], none⟩)] :=
  ⟨((claim_C2 1 [(1, ⟨1, ['a'], none⟩), (2, ⟨2, ['b'], none⟩)]
      (by decide)).1 (by decide)).1,
    (claim_C2 0 [(1, ⟨1, ['a'], none⟩), (2, ⟨2, ['b'], none⟩)] (by decide)).2⟩

end Doaddoad
